import Mathlib

/-!
Verification development for the move-search engine of the `xadrez-fala`
repository (`src/lib/ai.ts`).

The engine is a depth-limited minimax with alpha-beta pruning over a rules
engine (`chess.js`) that the code treats as an oracle.  We embed:

* `JVal` — the JavaScript numbers the search manipulates: finite integer
  centipawn evaluations plus the `-Infinity` / `+Infinity` sentinels used as
  initial accumulators and window bounds (no other numbers arise: evaluations
  are exact integers and the code only compares, never adds, the sentinels).
* the piece values, piece-square tables and `evaluateBoard`;
* an abstract rules-engine interface (`Engine`) mirroring the contract the
  code relies on (`moves`, `move` on a clone, `isGameOver`, `turn`,
  `board`), and over it `minimax`, `findTopMoves`, `findBestMove`;
* a concrete chess rules engine for the standard start position, to settle
  the concrete depth-2 scenario.
-/

namespace ChessAI

/-! ## Definitions -/

/-- A JavaScript number as used by the search: `-Infinity`, a finite integer,
or `+Infinity`.  All finite values that arise are exact integers. -/
inductive JVal : Type where
  | negInf : JVal
  | num : ℤ → JVal
  | posInf : JVal
deriving DecidableEq

/-- The usual order on extended integers: `-Infinity` below everything,
`+Infinity` above everything.  This agrees with JavaScript `<=` on these
values. -/
def JVal.le : JVal → JVal → Prop
  | .negInf, _ => True
  | .num _, .negInf => False
  | .num a, .num b => a ≤ b
  | .num _, .posInf => True
  | .posInf, .negInf => False
  | .posInf, .num _ => False
  | .posInf, .posInf => True

def JVal.decLe : (a b : JVal) → Decidable (JVal.le a b)
  | .negInf, .negInf => isTrue trivial
  | .negInf, .num _ => isTrue trivial
  | .negInf, .posInf => isTrue trivial
  | .num _, .negInf => isFalse id
  | .num a, .num b => inferInstanceAs (Decidable (a ≤ b))
  | .num _, .posInf => isTrue trivial
  | .posInf, .negInf => isFalse id
  | .posInf, .num _ => isFalse id
  | .posInf, .posInf => isTrue trivial

instance : LinearOrder JVal where
  le := JVal.le
  le_refl a := by cases a <;> simp [JVal.le]
  le_trans a b c h₁ h₂ := by
    cases a <;> cases b <;> cases c <;> simp_all [JVal.le] <;> omega
  le_antisymm a b h₁ h₂ := by
    cases a <;> cases b <;> simp_all [JVal.le] <;> omega
  le_total a b := by
    cases a <;> cases b <;> simp [JVal.le] <;> omega
  decidableLE := JVal.decLe

/-! ### Pieces and the evaluation function

Translated from `src/lib/ai.ts`.  `chess.js` reports the board as an 8×8
array whose row 0 is rank 8; a square holds `null` or a piece with a `type`
(`p n b r q k`) and a `color` (`w`/`b`). -/

inductive PieceKind : Type where
  | p | n | b | r | q | k
deriving DecidableEq

inductive Color : Type where
  | w | b
deriving DecidableEq

structure Piece : Type where
  ptype : PieceKind
  color : Color
deriving DecidableEq

/-- Material weights from `ai.ts` (`PIECE_VALUES`). -/
def PIECE_VALUES : PieceKind → ℤ
  | .p => 100
  | .n => 320
  | .b => 330
  | .r => 500
  | .q => 900
  | .k => 20000

/-- `PAWN_PST` from `ai.ts`. -/
def PAWN_PST : List (List ℤ) :=
  [[0,  0,  0,  0,  0,  0,  0,  0],
   [50, 50, 50, 50, 50, 50, 50, 50],
   [10, 10, 20, 30, 30, 20, 10, 10],
   [5,  5, 10, 25, 25, 10,  5,  5],
   [0,  0,  0, 20, 20,  0,  0,  0],
   [5, -5,-10,  0,  0,-10, -5,  5],
   [5, 10, 10,-20,-20, 10, 10,  5],
   [0,  0,  0,  0,  0,  0,  0,  0]]

/-- `KNIGHT_PST` from `ai.ts`. -/
def KNIGHT_PST : List (List ℤ) :=
  [[-50,-40,-30,-30,-30,-30,-40,-50],
   [-40,-20,  0,  0,  0,  0,-20,-40],
   [-30,  0, 10, 15, 15, 10,  0,-30],
   [-30,  5, 15, 20, 20, 15,  5,-30],
   [-30,  0, 15, 20, 20, 15,  0,-30],
   [-30,  5, 10, 15, 15, 10,  5,-30],
   [-40,-20,  0,  5,  5,  0,-20,-40],
   [-50,-40,-30,-30,-30,-30,-40,-50]]

/-- `BISHOP_PST` from `ai.ts`. -/
def BISHOP_PST : List (List ℤ) :=
  [[-20,-10,-10,-10,-10,-10,-10,-20],
   [-10,  0,  0,  0,  0,  0,  0,-10],
   [-10,  0,  5, 10, 10,  5,  0,-10],
   [-10,  5,  5, 10, 10,  5,  5,-10],
   [-10,  0, 10, 10, 10, 10,  0,-10],
   [-10, 10, 10, 10, 10, 10, 10,-10],
   [-10,  5,  0,  0,  0,  0,  5,-10],
   [-20,-10,-10,-10,-10,-10,-10,-20]]

/-- `ROOK_PST` from `ai.ts`. -/
def ROOK_PST : List (List ℤ) :=
  [[0,  0,  0,  0,  0,  0,  0,  0],
   [5, 10, 10, 10, 10, 10, 10,  5],
   [-5,  0,  0,  0,  0,  0,  0, -5],
   [-5,  0,  0,  0,  0,  0,  0, -5],
   [-5,  0,  0,  0,  0,  0,  0, -5],
   [-5,  0,  0,  0,  0,  0,  0, -5],
   [-5,  0,  0,  0,  0,  0,  0, -5],
   [0,  0,  0,  5,  5,  0,  0,  0]]

/-- `QUEEN_PST` from `ai.ts`. -/
def QUEEN_PST : List (List ℤ) :=
  [[-20,-10,-10, -5, -5,-10,-10,-20],
   [-10,  0,  0,  0,  0,  0,  0,-10],
   [-10,  0,  5,  5,  5,  5,  0,-10],
   [-5,   0,  5,  5,  5,  5,  0, -5],
   [0,    0,  5,  5,  5,  5,  0, -5],
   [-10,  5,  5,  5,  5,  5,  0,-10],
   [-10,  0,  5,  0,  0,  0,  0,-10],
   [-20,-10,-10, -5, -5,-10,-10,-20]]

/-- `KING_PST` from `ai.ts`. -/
def KING_PST : List (List ℤ) :=
  [[-30,-40,-40,-50,-50,-40,-40,-30],
   [-30,-40,-40,-50,-50,-40,-40,-30],
   [-30,-40,-40,-50,-50,-40,-40,-30],
   [-30,-40,-40,-50,-50,-40,-40,-30],
   [-20,-30,-30,-40,-40,-30,-30,-20],
   [-10,-20,-20,-20,-20,-20,-20,-10],
   [20, 20,  0,  0,  0,  0, 20, 20],
   [20, 30, 10,  0,  0, 10, 30, 20]]

/-- `PSTS` from `ai.ts`: the table for each piece kind. -/
def PSTS : PieceKind → List (List ℤ)
  | .p => PAWN_PST
  | .n => KNIGHT_PST
  | .b => BISHOP_PST
  | .r => ROOK_PST
  | .q => QUEEN_PST
  | .k => KING_PST

/-- Total 8×8 table lookup (`pst[row][col]` in the source; all accesses in the
source are in range, the defaults are never hit on the literal tables). -/
def pstGet (t : List (List ℤ)) (row col : ℕ) : ℤ :=
  (t.getD row []).getD col 0

/-- A board in the shape `chess.js`'s `game.board()` reports: row 0 is rank 8,
each square empty or a piece.  Only indices `0..7` are ever read. -/
def BoardFn : Type := ℕ → ℕ → Option Piece

/-- The contribution of one square to `evaluateBoard`: material plus
piece-square bonus, added for White and subtracted for Black (the loop body
of `evaluateBoard` in `ai.ts`; the `if (pst)` test is vacuous because every
piece kind has a table). -/
def squareScore (bd : BoardFn) (row col : ℕ) : ℤ :=
  match bd row col with
  | none => 0
  | some piece =>
    let materialValue := PIECE_VALUES piece.ptype
    let positionValue :=
      if piece.color = Color.w then pstGet (PSTS piece.ptype) row col
      else pstGet (PSTS piece.ptype) (7 - row) col
    let pieceScore := materialValue + positionValue
    if piece.color = Color.w then pieceScore else -pieceScore

/-- `evaluateBoard` from `ai.ts`: accumulate `squareScore` over the 8×8 board
in row-major order. -/
def evaluateBoard (bd : BoardFn) : ℤ :=
  (List.range 8).foldl
    (fun acc row => (List.range 8).foldl (fun acc2 col => acc2 + squareScore bd row col) acc) 0

/-! ### The abstract rules engine

The search treats `chess.js` as an oracle (spec §6).  `Engine` collects
exactly the operations the search uses.  `move P m` is the composite
`new Chess(game.fen()); gameCopy.move(m)` of the source: cloning an
immutable value is the identity in a pure embedding, so the per-call clone
followed by the move application is a single pure function producing the
child position.  `captured m` is the truthiness of the `captured` field of a
verbose `chess.js` move. -/

structure Engine (Pos Move : Type) : Type where
  board : Pos → BoardFn
  moves : Pos → List Move
  move : Pos → Move → Pos
  isGameOver : Pos → Bool
  turn : Pos → Color
  captured : Move → Bool

variable {Pos Move : Type}

/-- The move-ordering relation of both sorts in `ai.ts`:

* `minimax`'s comparator returns `-1` iff `a.captured && !b.captured`, `1`
  iff `!a.captured && b.captured`, else `0`;
* `findBestMove`'s root comparator returns `-1` iff
  `(a.captured?1:0) > (b.captured?1:0)`, i.e. iff `a.captured && !b.captured`,
  else `1`.

Both have the same strictly-precedes relation (`a` is a capture, `b` is not),
so a stable sort by either is the stable capture-first sort.  `a` may come
before `b` unless `b` strictly precedes it. -/
def capturesFirst (E : Engine Pos Move) (a b : Move) : Prop :=
  E.captured a = true ∨ E.captured b = false

instance (E : Engine Pos Move) : DecidableRel (capturesFirst E) := fun _ _ =>
  inferInstanceAs (Decidable (_ ∨ _))

instance (E : Engine Pos Move) : IsTotal Move (capturesFirst E) where
  total a b := by
    unfold capturesFirst
    cases h : E.captured a <;> cases h' : E.captured b <;> simp [h, h']

instance (E : Engine Pos Move) : IsTrans Move (capturesFirst E) where
  trans a b c hab hbc := by
    unfold capturesFirst at *
    rcases hab with h | h
    · exact Or.inl h
    · rcases hbc with h' | h'
      · rw [h] at h'; cases h'
      · exact Or.inr h'

/-- `moves.sort(...)` with a capture-first comparator (`ai.ts` lines 143–149
and line 200): the ECMAScript sort is stable, so the result is the stable
capture-first permutation. -/
def sortMovesCapturesFirst (E : Engine Pos Move) (ms : List Move) : List Move :=
  List.insertionSort (capturesFirst E) ms

/-- The maximizing sibling loop of `minimax`: track the running maximum,
raise `alpha`, and break as soon as `beta <= alpha`. -/
def maxLoop (child : Move → JVal → JVal → JVal) :
    List Move → JVal → JVal → JVal → JVal
  | [], maxEval, _, _ => maxEval
  | m :: ms, maxEval, alpha, beta =>
    let evaluation := child m alpha beta
    let maxEval' := max maxEval evaluation
    let alpha' := max alpha evaluation
    if beta ≤ alpha' then maxEval' else maxLoop child ms maxEval' alpha' beta

/-- The minimizing sibling loop of `minimax`: track the running minimum,
lower `beta`, and break as soon as `beta <= alpha`. -/
def minLoop (child : Move → JVal → JVal → JVal) :
    List Move → JVal → JVal → JVal → JVal
  | [], minEval, _, _ => minEval
  | m :: ms, minEval, alpha, beta =>
    let evaluation := child m alpha beta
    let minEval' := min minEval evaluation
    let beta' := min beta evaluation
    if beta' ≤ alpha then minEval' else minLoop child ms minEval' alpha beta'

/-- `minimax` from `ai.ts`: at depth 0 or on a game-over position return the
static evaluation; otherwise sort the legal moves capture-first and run the
alpha-beta sibling loop, recursing on each child position. -/
def minimax (E : Engine Pos Move) : ℕ → Pos → JVal → JVal → Bool → JVal
  | 0, P, _, _, _ => .num (evaluateBoard (E.board P))
  | d + 1, P, alpha, beta, isMaximizingPlayer =>
    if E.isGameOver P then .num (evaluateBoard (E.board P))
    else
      let moves := sortMovesCapturesFirst E (E.moves P)
      if isMaximizingPlayer then
        maxLoop (fun m a b => minimax E d (E.move P m) a b false) moves .negInf alpha beta
      else
        minLoop (fun m a b => minimax E d (E.move P m) a b true) moves .posInf alpha beta

/-- The ordering used by `findTopMoves` on `(move, evaluation)` pairs:
`a` may precede `b` unless the comparator (`b.evaluation - a.evaluation` when
maximizing, `a.evaluation - b.evaluation` otherwise) is strictly negative on
`(b, a)`.  On `JVal` the comparator is negative exactly on a strict order
comparison (a `NaN` from `±Infinity - ±Infinity` is treated as `+0` by the
ECMAScript sort, i.e. as a tie, matching `¬ · < ·`). -/
def evalOrder (isMax : Bool) (a b : Move × JVal) : Prop :=
  if isMax then b.2 ≤ a.2 else a.2 ≤ b.2

instance (isMax : Bool) : DecidableRel (@evalOrder Move isMax) := fun a b => by
  unfold evalOrder
  split <;> infer_instance

instance (isMax : Bool) : IsTotal (Move × JVal) (evalOrder isMax) where
  total a b := by unfold evalOrder; split <;> exact le_total _ _

instance (isMax : Bool) : IsTrans (Move × JVal) (evalOrder isMax) where
  trans a b c hab hbc := by
    unfold evalOrder at *
    split at hab <;> simp_all
    · exact le_trans hbc hab
    · exact le_trans hab hbc

/-- `findTopMoves` from `ai.ts`: evaluate every legal root move with a full
window at depth `depth - 1` from the opponent's perspective, sort the pairs
by evaluation (descending when White is to move, ascending when Black is),
and keep the first `count`. -/
def findTopMoves (E : Engine Pos Move) (P : Pos) (depth count : ℕ) :
    List (Move × JVal) :=
  let moves := E.moves P
  if moves.isEmpty then []
  else
    let isMaximizingPlayer := decide (E.turn P = Color.w)
    let moveEvaluations := moves.map (fun m =>
      (m, minimax E (depth - 1) (E.move P m) .negInf .posInf (!isMaximizingPlayer)))
    (List.insertionSort (evalOrder isMaximizingPlayer) moveEvaluations).take count

/-- The root loop of `findBestMove`: keep a move only when its value is
strictly better (`>` when maximizing, `<` when minimizing) than the current
best. -/
def bestLoop (child : Move → JVal) (isMax : Bool) :
    List Move → Move → JVal → Move × JVal
  | [], bestMove, bestValue => (bestMove, bestValue)
  | m :: ms, bestMove, bestValue =>
    let boardValue := child m
    if isMax then
      if bestValue < boardValue then bestLoop child isMax ms m boardValue
      else bestLoop child isMax ms bestMove bestValue
    else
      if boardValue < bestValue then bestLoop child isMax ms m boardValue
      else bestLoop child isMax ms bestMove bestValue

/-- `findBestMove` from `ai.ts`: with no legal moves return
`(null, evaluateBoard P)`; otherwise sort the root moves capture-first,
initialise `bestMove` to the first sorted move (the in-place sort has already
happened when `moves[0]` is read) and `bestValue` to the worst sentinel for
the side to move, then run the strict-improvement loop.  The `headD` fallback
is never used: the sorted list is a permutation of a non-empty list. -/
def findBestMove (E : Engine Pos Move) (P : Pos) (depth : ℕ) :
    Option Move × JVal :=
  match E.moves P with
  | [] => (none, .num (evaluateBoard (E.board P)))
  | m₀ :: rest =>
    let sorted := sortMovesCapturesFirst E (m₀ :: rest)
    let isMaximizingPlayer := decide (E.turn P = Color.w)
    let r := bestLoop
      (fun m => minimax E (depth - 1) (E.move P m) .negInf .posInf (!isMaximizingPlayer))
      isMaximizingPlayer sorted (sorted.headD m₀)
      (if isMaximizingPlayer then JVal.negInf else JVal.posInf)
    (some r.1, r.2)

/-- Unpruned, unordered minimax (spec §8). -/
def minimaxFull (E : Engine Pos Move) : ℕ → Pos → Bool → JVal
  | 0, P, _ => .num (evaluateBoard (E.board P))
  | d + 1, P, maxing =>
    if E.isGameOver P then .num (evaluateBoard (E.board P))
    else if maxing then
      (E.moves P).foldl (fun acc m => max acc (minimaxFull E d (E.move P m) false)) .negInf
    else
      (E.moves P).foldl (fun acc m => min acc (minimaxFull E d (E.move P m) true)) .posInf

/-- The root value of the unpruned full minimax over the same game tree that
`findBestMove` searches: the root branches are the legal root moves, each
searched unpruned to depth `depth − 1` from the opponent's perspective, and
the root combines them with plain max (White to move) or min (Black). -/
def fullRootValue (E : Engine Pos Move) (P : Pos) (depth : ℕ) : JVal :=
  match E.moves P with
  | [] => .num (evaluateBoard (E.board P))
  | m₀ :: rest =>
    if E.turn P = Color.w then
      (m₀ :: rest).foldl
        (fun acc m => max acc (minimaxFull E (depth - 1) (E.move P m) false)) .negInf
    else
      (m₀ :: rest).foldl
        (fun acc m => min acc (minimaxFull E (depth - 1) (E.move P m) true)) .posInf

/-- Clamp a value into the window `[alpha, beta]`. -/
def clamp (alpha beta x : JVal) : JVal := max alpha (min beta x)

/-- A degenerate rules engine on a one-point position type: empty board, no
legal moves, always game over. -/
def unitEngine : Engine Unit Unit where
  board _ := fun _ _ => none
  moves _ := []
  move _ _ := ()
  isGameOver _ := true
  turn _ := Color.w
  captured _ := false

/-- A rules engine on a one-point position type with two root moves (one a
capture), always game over, so every search leaf is the static evaluation of
the empty board. -/
def twoMoveEngine : Engine Unit Bool where
  board _ := fun _ _ => none
  moves _ := [false, true]
  move _ _ := ()
  isGameOver _ := true
  turn _ := Color.w
  captured m := m

/-- The value `findBestMove` assigns to a root move: a full-window search of
the child position at depth `depth − 1` from the opponent's perspective. -/
def rootChild (E : Engine Pos Move) (P : Pos) (depth : ℕ) : Move → JVal :=
  fun m => minimax E (depth - 1) (E.move P m) JVal.negInf JVal.posInf
    (!decide (E.turn P = Color.w))

/-- The `(move, evaluation)` pairs `findTopMoves` builds, in enumeration
order (`moveEvaluations` in the source). -/
def moveEvaluations (E : Engine Pos Move) (P : Pos) (depth : ℕ) :
    List (Move × JVal) :=
  (E.moves P).map (fun m => (m, rootChild E P depth m))

/-! ### Color symmetry of the evaluation (C6) -/

def flipColor : Color → Color
  | .w => .b
  | .b => .w

def colorFlipPiece (pc : Piece) : Piece := ⟨pc.ptype, flipColor pc.color⟩

/-- The operation named in the claim: every piece changes color, every piece
stays on its square. -/
def colorFlip (bd : BoardFn) : BoardFn := fun r c => (bd r c).map colorFlipPiece

/-- The symmetry the code actually has: flip every piece's color *and* mirror
its square across the horizontal rank axis (row `r` to `7 − r`, same
file). -/
def colorMirror (bd : BoardFn) : BoardFn := fun r c => (bd (7 - r) c).map colorFlipPiece

/-- White king e1, Black king e8, White pawn a7 (row 1, col 0). -/
def boardC6 : BoardFn := fun r c =>
  if r = 7 ∧ c = 4 then some ⟨PieceKind.k, Color.w⟩
  else if r = 0 ∧ c = 4 then some ⟨PieceKind.k, Color.b⟩
  else if r = 1 ∧ c = 0 then some ⟨PieceKind.p, Color.w⟩
  else none

/-! ### A concrete chess rules engine

Modelled from the spec: the search delegates legal-move generation, move
application and terminal detection to the external `chess.js` library, which
is not part of the repository's sources.  Spec §6 requires a rules-engine
collaborator whose `legalMoves` "must enforce full game rules (check
legality, castling rights, en passant, promotion)" and whose `isGameOver` is
"true on checkmate, stalemate, or any other drawing condition the rules
engine recognizes".  We implement standard chess move generation and
application accordingly; the modelled engine recognizes checkmate and
stalemate (no legal move) as game over — optional draw conditions
(repetition, fifty-move clock, insufficient material) are not modelled and
never arise in the positions the concrete claim explores.

Squares are indexed `0..63` row-major with row 0 = rank 8, matching the
orientation of `chess.js`'s `board()` and of the piece-square tables. -/

def sqAt (sqs : List (List (Option Piece))) (i : ℕ) : Option Piece :=
  (sqs.getD (i / 8) []).getD (i % 8) none

def setSq (sqs : List (List (Option Piece))) (i : ℕ) (v : Option Piece) :
    List (List (Option Piece)) :=
  sqs.set (i / 8) ((sqs.getD (i / 8) []).set (i % 8) v)

def inBounds (r c : ℤ) : Bool :=
  decide (0 ≤ r) && decide (r < 8) && decide (0 ≤ c) && decide (c < 8)

def idxZ (r c : ℤ) : ℕ := r.toNat * 8 + c.toNat

def rookDirs : List (ℤ × ℤ) := [(-1, 0), (1, 0), (0, -1), (0, 1)]

def bishopDirs : List (ℤ × ℤ) := [(-1, -1), (-1, 1), (1, -1), (1, 1)]

def knightOffsets : List (ℤ × ℤ) :=
  [(-2, -1), (-2, 1), (-1, -2), (-1, 2), (1, -2), (1, 2), (2, -1), (2, 1)]

def kingOffsets : List (ℤ × ℤ) := rookDirs ++ bishopDirs

/-- First piece encountered walking from `(r, c)` in direction `(dr, dc)`. -/
def rayFirst (sqs : List (List (Option Piece))) : ℕ → ℤ → ℤ → ℤ → ℤ → Option Piece
  | 0, _, _, _, _ => none
  | fuel + 1, r, c, dr, dc =>
    let r' := r + dr
    let c' := c + dc
    if inBounds r' c' then
      match sqAt sqs (idxZ r' c') with
      | some pc => some pc
      | none => rayFirst sqs fuel r' c' dr dc
    else none

def offsetHas (sqs : List (List (Option Piece))) (r c : ℤ) (off : List (ℤ × ℤ))
    (att : Color) (k : PieceKind) : Bool :=
  off.any (fun d =>
    inBounds (r + d.1) (c + d.2) &&
      decide (sqAt sqs (idxZ (r + d.1) (c + d.2)) = some ⟨k, att⟩))

/-- Is the square `t` attacked by a piece of color `att`? -/
def squareAttacked (sqs : List (List (Option Piece))) (att : Color) (t : ℕ) : Bool :=
  let r : ℤ := ((t / 8 : ℕ) : ℤ)
  let c : ℤ := ((t % 8 : ℕ) : ℤ)
  let pr : ℤ := if att = Color.w then r + 1 else r - 1
  (inBounds pr (c - 1) && decide (sqAt sqs (idxZ pr (c - 1)) = some ⟨PieceKind.p, att⟩)) ||
  (inBounds pr (c + 1) && decide (sqAt sqs (idxZ pr (c + 1)) = some ⟨PieceKind.p, att⟩)) ||
  offsetHas sqs r c knightOffsets att PieceKind.n ||
  offsetHas sqs r c kingOffsets att PieceKind.k ||
  rookDirs.any (fun d =>
    match rayFirst sqs 8 r c d.1 d.2 with
    | some pc => decide (pc.color = att) &&
        (decide (pc.ptype = PieceKind.r) || decide (pc.ptype = PieceKind.q))
    | none => false) ||
  bishopDirs.any (fun d =>
    match rayFirst sqs 8 r c d.1 d.2 with
    | some pc => decide (pc.color = att) &&
        (decide (pc.ptype = PieceKind.b) || decide (pc.ptype = PieceKind.q))
    | none => false)

/-- A chess position: an 8×8 board (row 0 = rank 8), side to move, castling
rights, en-passant target square, and the cached king squares (`chess.js`
likewise tracks `_kings`). -/
structure ChessPos : Type where
  sq : List (List (Option Piece))
  side : Color
  castleWK : Bool
  castleWQ : Bool
  castleBK : Bool
  castleBQ : Bool
  ep : Option ℕ
  wk : ℕ
  bk : ℕ
deriving DecidableEq

/-- A verbose move: origin, destination, optional promotion piece, optional
captured piece kind, castling and en-passant flags. -/
structure ChessMove : Type where
  fromSq : ℕ
  toSq : ℕ
  promo : Option PieceKind
  captured : Option PieceKind
  isCastle : Bool
  isEP : Bool
deriving DecidableEq

def inCheck (pos : ChessPos) (col : Color) : Bool :=
  squareAttacked pos.sq (flipColor col)
    (if col = Color.w then pos.wk else pos.bk)

def promoKinds : List PieceKind := [PieceKind.q, PieceKind.r, PieceKind.b, PieceKind.n]

def pawnMoves (pos : ChessPos) (i : ℕ) (col : Color) : List ChessMove :=
  let r : ℤ := ((i / 8 : ℕ) : ℤ)
  let c : ℤ := ((i % 8 : ℕ) : ℤ)
  let dr : ℤ := if col = Color.w then -1 else 1
  let startRow : ℤ := if col = Color.w then 6 else 1
  let promoRow : ℤ := if col = Color.w then 0 else 7
  let fwd := r + dr
  let pushes : List ChessMove :=
    if inBounds fwd c && decide (sqAt pos.sq (idxZ fwd c) = none) then
      (if fwd = promoRow then
        promoKinds.map (fun pk => ⟨i, idxZ fwd c, some pk, none, false, false⟩)
       else [⟨i, idxZ fwd c, none, none, false, false⟩]) ++
      (if decide (r = startRow) && decide (sqAt pos.sq (idxZ (r + 2 * dr) c) = none) then
        [⟨i, idxZ (r + 2 * dr) c, none, none, false, false⟩]
       else [])
    else []
  let caps : List ChessMove := [c - 1, c + 1].foldr (fun c' acc =>
    if inBounds fwd c' then
      match sqAt pos.sq (idxZ fwd c') with
      | some pc =>
        if decide (pc.color = flipColor col) then
          (if fwd = promoRow then
            promoKinds.map (fun pk => ⟨i, idxZ fwd c', some pk, some pc.ptype, false, false⟩)
           else [⟨i, idxZ fwd c', none, some pc.ptype, false, false⟩]) ++ acc
        else acc
      | none =>
        if decide (pos.ep = some (idxZ fwd c')) then
          ⟨i, idxZ fwd c', none, some PieceKind.p, false, true⟩ :: acc
        else acc
    else acc) []
  pushes ++ caps

def leapMoves (pos : ChessPos) (i : ℕ) (col : Color) (off : List (ℤ × ℤ)) :
    List ChessMove :=
  let r : ℤ := ((i / 8 : ℕ) : ℤ)
  let c : ℤ := ((i % 8 : ℕ) : ℤ)
  off.foldr (fun d acc =>
    let r' := r + d.1
    let c' := c + d.2
    if inBounds r' c' then
      match sqAt pos.sq (idxZ r' c') with
      | none => ⟨i, idxZ r' c', none, none, false, false⟩ :: acc
      | some pc =>
        if decide (pc.color = flipColor col) then
          ⟨i, idxZ r' c', none, some pc.ptype, false, false⟩ :: acc
        else acc
    else acc) []

def slideRay (pos : ChessPos) (i : ℕ) (col : Color) :
    ℕ → ℤ → ℤ → ℤ → ℤ → List ChessMove
  | 0, _, _, _, _ => []
  | fuel + 1, r, c, dr, dc =>
    let r' := r + dr
    let c' := c + dc
    if inBounds r' c' then
      match sqAt pos.sq (idxZ r' c') with
      | none => ⟨i, idxZ r' c', none, none, false, false⟩ ::
          slideRay pos i col fuel r' c' dr dc
      | some pc =>
        if decide (pc.color = flipColor col) then
          [⟨i, idxZ r' c', none, some pc.ptype, false, false⟩]
        else []
    else []

def slideMoves (pos : ChessPos) (i : ℕ) (col : Color) (dirs : List (ℤ × ℤ)) :
    List ChessMove :=
  dirs.foldr (fun d acc =>
    slideRay pos i col 8 ((i / 8 : ℕ) : ℤ) ((i % 8 : ℕ) : ℤ) d.1 d.2 ++ acc) []

def castleMoves (pos : ChessPos) (col : Color) : List ChessMove :=
  let sqs := pos.sq
  if inCheck pos col then []
  else
    match col with
    | .w =>
      (if pos.castleWK && decide (sqAt sqs 61 = none) && decide (sqAt sqs 62 = none)
          && !squareAttacked sqs Color.b 61 && !squareAttacked sqs Color.b 62 then
        [⟨60, 62, none, none, true, false⟩] else []) ++
      (if pos.castleWQ && decide (sqAt sqs 59 = none) && decide (sqAt sqs 58 = none)
          && decide (sqAt sqs 57 = none)
          && !squareAttacked sqs Color.b 59 && !squareAttacked sqs Color.b 58 then
        [⟨60, 58, none, none, true, false⟩] else [])
    | .b =>
      (if pos.castleBK && decide (sqAt sqs 5 = none) && decide (sqAt sqs 6 = none)
          && !squareAttacked sqs Color.w 5 && !squareAttacked sqs Color.w 6 then
        [⟨4, 6, none, none, true, false⟩] else []) ++
      (if pos.castleBQ && decide (sqAt sqs 3 = none) && decide (sqAt sqs 2 = none)
          && decide (sqAt sqs 1 = none)
          && !squareAttacked sqs Color.w 3 && !squareAttacked sqs Color.w 2 then
        [⟨4, 2, none, none, true, false⟩] else [])

def pseudoMovesFrom (pos : ChessPos) (i : ℕ) : List ChessMove :=
  match sqAt pos.sq i with
  | none => []
  | some pc =>
    if pc.color = pos.side then
      match pc.ptype with
      | .p => pawnMoves pos i pc.color
      | .n => leapMoves pos i pc.color knightOffsets
      | .b => slideMoves pos i pc.color bishopDirs
      | .r => slideMoves pos i pc.color rookDirs
      | .q => slideMoves pos i pc.color (rookDirs ++ bishopDirs)
      | .k => leapMoves pos i pc.color kingOffsets ++ castleMoves pos pc.color
    else []

def pseudoMoves (pos : ChessPos) : List ChessMove :=
  (List.range 64).foldr (fun i acc => pseudoMovesFrom pos i ++ acc) []

def applyMove (pos : ChessPos) (m : ChessMove) : ChessPos :=
  match sqAt pos.sq m.fromSq with
  | none => pos
  | some pc =>
    let moved : Piece :=
      match m.promo with
      | some pk => ⟨pk, pc.color⟩
      | none => pc
    let sq1 := setSq (setSq pos.sq m.fromSq none) m.toSq (some moved)
    let sq2 :=
      if m.isEP then setSq sq1 ((m.fromSq / 8) * 8 + m.toSq % 8) none else sq1
    let sq3 :=
      if m.isCastle then
        if m.toSq = 62 then setSq (setSq sq2 63 none) 61 (some ⟨PieceKind.r, pc.color⟩)
        else if m.toSq = 58 then setSq (setSq sq2 56 none) 59 (some ⟨PieceKind.r, pc.color⟩)
        else if m.toSq = 6 then setSq (setSq sq2 7 none) 5 (some ⟨PieceKind.r, pc.color⟩)
        else if m.toSq = 2 then setSq (setSq sq2 0 none) 3 (some ⟨PieceKind.r, pc.color⟩)
        else sq2
      else sq2
    let ep' : Option ℕ :=
      if decide (pc.ptype = PieceKind.p) &&
          (decide (m.fromSq = m.toSq + 16) || decide (m.toSq = m.fromSq + 16)) then
        some ((m.fromSq + m.toSq) / 2)
      else none
    { sq := sq3
      side := flipColor pos.side
      castleWK := pos.castleWK &&
        !(decide (m.fromSq = 60) || decide (m.fromSq = 63) || decide (m.toSq = 63))
      castleWQ := pos.castleWQ &&
        !(decide (m.fromSq = 60) || decide (m.fromSq = 56) || decide (m.toSq = 56))
      castleBK := pos.castleBK &&
        !(decide (m.fromSq = 4) || decide (m.fromSq = 7) || decide (m.toSq = 7))
      castleBQ := pos.castleBQ &&
        !(decide (m.fromSq = 4) || decide (m.fromSq = 0) || decide (m.toSq = 0))
      ep := ep'
      wk := if pc.ptype = PieceKind.k && pc.color = Color.w then m.toSq else pos.wk
      bk := if pc.ptype = PieceKind.k && pc.color = Color.b then m.toSq else pos.bk }

/-- Pseudo-legal moves filtered by check legality: the mover's king may not
be attacked after the move. -/
def legalMoves (pos : ChessPos) : List ChessMove :=
  (pseudoMoves pos).filter (fun m => !inCheck (applyMove pos m) pos.side)

/-- Modelled from the spec: the `chess.js` rules-engine collaborator of
spec §6 (legal move generation, move application, turn, game-over and board
accessors), which is missing from the repository's sources.  The concrete
claims are settled against this instance. -/
def chessEngine : Engine ChessPos ChessMove where
  board := fun pos r c => (pos.sq.getD r []).getD c none
  moves := legalMoves
  move := applyMove
  isGameOver := fun pos => (legalMoves pos).isEmpty
  turn := ChessPos.side
  captured := fun m => m.captured.isSome

def backRank (col : Color) : List (Option Piece) :=
  [some ⟨PieceKind.r, col⟩, some ⟨PieceKind.n, col⟩, some ⟨PieceKind.b, col⟩,
   some ⟨PieceKind.q, col⟩, some ⟨PieceKind.k, col⟩, some ⟨PieceKind.b, col⟩,
   some ⟨PieceKind.n, col⟩, some ⟨PieceKind.r, col⟩]

def pawnRank (col : Color) : List (Option Piece) :=
  List.replicate 8 (some ⟨PieceKind.p, col⟩)

def emptyRank : List (Option Piece) := List.replicate 8 none

/-- The standard chess starting position. -/
def startPos : ChessPos :=
  { sq := [backRank Color.b, pawnRank Color.b, emptyRank, emptyRank,
           emptyRank, emptyRank, pawnRank Color.w, backRank Color.w]
    side := Color.w
    castleWK := true
    castleWQ := true
    castleBK := true
    castleBQ := true
    ep := none
    wk := 60
    bk := 4 }

/-! ### A store of mutable position objects

A heap-passing translation of the same source: `chess.js` objects are
mutable, so we model a store of position cells addressed by handles.
`new Chess(game.fen())` reads the caller's cell and allocates a fresh cell
with the same position value; `gameCopy.move(move)` overwrites the fresh
cell. -/

/-- A store of position objects: cells by handle, plus the next fresh
handle. -/
structure Store (Pos : Type) : Type where
  mem : ℕ → Option Pos
  next : ℕ

def Store.alloc (σ : Store Pos) (P : Pos) : ℕ × Store Pos :=
  (σ.next, ⟨fun i => if i = σ.next then some P else σ.mem i, σ.next + 1⟩)

def Store.write (σ : Store Pos) (h : ℕ) (P : Pos) : Store Pos :=
  ⟨fun i => if i = h then some P else σ.mem i, σ.next⟩

/-- `σ'` extends `σ`: all cells that existed in `σ` are unchanged. -/
def Preserves (σ σ' : Store Pos) : Prop :=
  σ.next ≤ σ'.next ∧ ∀ i, i < σ.next → σ'.mem i = σ.mem i

/-- Heap-passing maximizing sibling loop: each iteration reads the caller's
cell, clones it, mutates the clone, and searches the clone. -/
def maxLoopS (E : Engine Pos Move) (g : ℕ)
    (child : ℕ → JVal → JVal → Store Pos → JVal × Store Pos) :
    List Move → JVal → JVal → JVal → Store Pos → JVal × Store Pos
  | [], acc, _, _, σ => (acc, σ)
  | m :: ms, acc, alpha, beta, σ =>
    match σ.mem g with
    | none => (acc, σ)
    | some Pg =>
      let a := σ.alloc Pg
      let σ₂ := a.2.write a.1 (E.move Pg m)
      let r := child a.1 alpha beta σ₂
      let acc' := max acc r.1
      let alpha' := max alpha r.1
      if beta ≤ alpha' then (acc', r.2)
      else maxLoopS E g child ms acc' alpha' beta r.2

/-- Heap-passing minimizing sibling loop. -/
def minLoopS (E : Engine Pos Move) (g : ℕ)
    (child : ℕ → JVal → JVal → Store Pos → JVal × Store Pos) :
    List Move → JVal → JVal → JVal → Store Pos → JVal × Store Pos
  | [], acc, _, _, σ => (acc, σ)
  | m :: ms, acc, alpha, beta, σ =>
    match σ.mem g with
    | none => (acc, σ)
    | some Pg =>
      let a := σ.alloc Pg
      let σ₂ := a.2.write a.1 (E.move Pg m)
      let r := child a.1 alpha beta σ₂
      let acc' := min acc r.1
      let beta' := min beta r.1
      if beta' ≤ alpha then (acc', r.2)
      else minLoopS E g child ms acc' alpha beta' r.2

/-- Heap-passing `minimax`: the position argument is a handle into the
store; each sibling clones the handle's position and mutates the clone. -/
def minimaxS (E : Engine Pos Move) :
    ℕ → ℕ → JVal → JVal → Bool → Store Pos → JVal × Store Pos
  | 0, g, _, _, _, σ =>
    (match σ.mem g with
     | some P => JVal.num (evaluateBoard (E.board P))
     | none => JVal.num 0, σ)
  | d + 1, g, alpha, beta, maxing, σ =>
    match σ.mem g with
    | none => (JVal.num 0, σ)
    | some P =>
      if E.isGameOver P then (JVal.num (evaluateBoard (E.board P)), σ)
      else
        let moves := sortMovesCapturesFirst E (E.moves P)
        if maxing then
          maxLoopS E g (fun h a b σ' => minimaxS E d h a b false σ')
            moves JVal.negInf alpha beta σ
        else
          minLoopS E g (fun h a b σ' => minimaxS E d h a b true σ')
            moves JVal.posInf alpha beta σ

/-- Heap-passing root loop of `findBestMove`. -/
def bestLoopS (E : Engine Pos Move) (g : ℕ)
    (child : ℕ → Store Pos → JVal × Store Pos) (isMax : Bool) :
    List Move → Move → JVal → Store Pos → (Move × JVal) × Store Pos
  | [], bm, bv, σ => ((bm, bv), σ)
  | m :: ms, bm, bv, σ =>
    match σ.mem g with
    | none => ((bm, bv), σ)
    | some Pg =>
      let a := σ.alloc Pg
      let σ₂ := a.2.write a.1 (E.move Pg m)
      let r := child a.1 σ₂
      if isMax then
        if bv < r.1 then bestLoopS E g child isMax ms m r.1 r.2
        else bestLoopS E g child isMax ms bm bv r.2
      else
        if r.1 < bv then bestLoopS E g child isMax ms m r.1 r.2
        else bestLoopS E g child isMax ms bm bv r.2

/-- Heap-passing `findBestMove`. -/
def findBestMoveS (E : Engine Pos Move) (g : ℕ) (depth : ℕ) (σ : Store Pos) :
    (Option Move × JVal) × Store Pos :=
  match σ.mem g with
  | none => ((none, JVal.num 0), σ)
  | some P =>
    match E.moves P with
    | [] => ((none, JVal.num (evaluateBoard (E.board P))), σ)
    | m₀ :: rest =>
      let sorted := sortMovesCapturesFirst E (m₀ :: rest)
      let isMax := decide (E.turn P = Color.w)
      let r := bestLoopS E g
        (fun h σ' => minimaxS E (depth - 1) h JVal.negInf JVal.posInf (!isMax) σ')
        isMax sorted (sorted.headD m₀)
        (if isMax then JVal.negInf else JVal.posInf) σ
      ((some r.1.1, r.1.2), r.2)

/-- Heap-passing evaluation collection loop of `findTopMoves` (the `push`
loop, in enumeration order). -/
def collectLoopS (E : Engine Pos Move) (g : ℕ)
    (child : ℕ → Store Pos → JVal × Store Pos) :
    List Move → Store Pos → List (Move × JVal) × Store Pos
  | [], σ => ([], σ)
  | m :: ms, σ =>
    match σ.mem g with
    | none => ([], σ)
    | some Pg =>
      let a := σ.alloc Pg
      let σ₂ := a.2.write a.1 (E.move Pg m)
      let r := child a.1 σ₂
      let rest := collectLoopS E g child ms r.2
      ((m, r.1) :: rest.1, rest.2)

/-- Heap-passing `findTopMoves`. -/
def findTopMovesS (E : Engine Pos Move) (g : ℕ) (depth count : ℕ)
    (σ : Store Pos) : List (Move × JVal) × Store Pos :=
  match σ.mem g with
  | none => ([], σ)
  | some P =>
    let moves := E.moves P
    if moves.isEmpty then ([], σ)
    else
      let isMax := decide (E.turn P = Color.w)
      let cl := collectLoopS E g
        (fun h σ' => minimaxS E (depth - 1) h JVal.negInf JVal.posInf (!isMax) σ')
        moves σ
      ((List.insertionSort (evalOrder isMax) cl.1).take count, cl.2)

/-- Heap-passing `evaluate`: a pure read of the caller's cell. -/
def evaluateS (E : Engine Pos Move) (g : ℕ) (σ : Store Pos) : ℤ × Store Pos :=
  (match σ.mem g with
   | some P => evaluateBoard (E.board P)
   | none => 0, σ)

/-- A one-cell store holding the unit position. -/
def unitStore : Store Unit := ⟨fun i => if i = 0 then some () else none, 1⟩

/-! ## Theorems -/

theorem JVal.negInf_le (a : JVal) : JVal.negInf ≤ a := trivial

theorem JVal.le_posInf (a : JVal) : a ≤ JVal.posInf := by
  cases a <;> trivial

theorem JVal.num_lt_posInf (n : ℤ) : JVal.num n < JVal.posInf := by
  constructor
  · trivial
  · exact fun h => h

theorem JVal.negInf_lt_num (n : ℤ) : JVal.negInf < JVal.num n := by
  constructor
  · trivial
  · exact fun h => h

theorem JVal.negInf_lt_posInf : JVal.negInf < JVal.posInf := by
  constructor
  · trivial
  · exact fun h => h

theorem clamp_le_beta {alpha beta : JVal} (h : alpha ≤ beta) (x : JVal) :
    clamp alpha beta x ≤ beta :=
  max_le h (min_le_left _ _)

theorem alpha_le_clamp (alpha beta x : JVal) : alpha ≤ clamp alpha beta x :=
  le_max_left _ _

theorem clamp_max_distrib (alpha beta x y : JVal) :
    clamp alpha beta (max x y) = max (clamp alpha beta x) (clamp alpha beta y) := by
  unfold clamp
  rw [min_max_distrib_left]
  rcases le_total (min beta x) (min beta y) with h | h
  · rw [max_eq_right h, max_eq_right (max_le_max le_rfl h)]
  · rw [max_eq_left h, max_eq_left (max_le_max le_rfl h)]

theorem clamp_min_distrib (alpha beta x y : JVal) :
    clamp alpha beta (min x y) = min (clamp alpha beta x) (clamp alpha beta y) := by
  unfold clamp
  have h : min beta (min x y) = min (min beta x) (min beta y) := by
    rcases le_total x y with h | h
    · rw [min_eq_left h, min_eq_left (min_le_min le_rfl h)]
    · rw [min_eq_right h, min_eq_right (min_le_min le_rfl h)]
  rw [h, max_min_distrib_left]

theorem clamp_raise_alpha {e beta x : JVal} (alpha : JVal) (he : e ≤ beta) (hx : e ≤ x) :
    clamp (max alpha e) beta x = clamp alpha beta x := by
  unfold clamp
  rw [max_assoc, max_eq_right (le_min he hx)]

theorem clamp_lower_beta {e alpha x : JVal} (beta : JVal) (he : alpha ≤ e) (hx : x ≤ e) :
    clamp alpha (min beta e) x = clamp alpha beta x := by
  unfold clamp
  rw [min_assoc, min_eq_right hx]

theorem clamp_full (x : JVal) : clamp JVal.negInf JVal.posInf x = x := by
  unfold clamp
  rw [min_eq_right (JVal.le_posInf x), max_eq_right (JVal.negInf_le x)]

/-- The alpha-beta loops only ever grow (shrink) their accumulator. -/
theorem le_maxLoop (child : Move → JVal → JVal → JVal) :
    ∀ (ms : List Move) (acc alpha beta : JVal), acc ≤ maxLoop child ms acc alpha beta := by
  intro ms
  induction ms with
  | nil => intro acc alpha beta; exact le_refl acc
  | cons m ms ih =>
    intro acc alpha beta
    simp only [maxLoop]
    split
    · exact le_max_left _ _
    · exact le_trans (le_max_left _ _) (ih _ _ _)

theorem minLoop_le (child : Move → JVal → JVal → JVal) :
    ∀ (ms : List Move) (acc alpha beta : JVal), minLoop child ms acc alpha beta ≤ acc := by
  intro ms
  induction ms with
  | nil => intro acc alpha beta; exact le_refl acc
  | cons m ms ih =>
    intro acc alpha beta
    simp only [minLoop]
    split
    · exact min_le_left _ _
    · exact le_trans (ih _ _ _) (min_le_left _ _)

theorem foldl_max_shift (g : Move → JVal) (ms : List Move) :
    ∀ (x y : JVal),
      ms.foldl (fun a m => max a (g m)) (max x y) =
        max x (ms.foldl (fun a m => max a (g m)) y) := by
  induction ms with
  | nil => intro x y; rfl
  | cons m ms ih =>
    intro x y
    simp only [List.foldl_cons]
    rw [max_assoc, ih]

theorem le_foldl_max (g : Move → JVal) (ms : List Move) :
    ∀ y : JVal, y ≤ ms.foldl (fun a m => max a (g m)) y := by
  induction ms with
  | nil => intro y; exact le_refl y
  | cons m ms ih =>
    intro y
    simp only [List.foldl_cons]
    exact le_trans (le_max_left _ _) (ih _)

theorem foldl_min_shift (g : Move → JVal) (ms : List Move) :
    ∀ (x y : JVal),
      ms.foldl (fun a m => min a (g m)) (min x y) =
        min x (ms.foldl (fun a m => min a (g m)) y) := by
  induction ms with
  | nil => intro x y; rfl
  | cons m ms ih =>
    intro x y
    simp only [List.foldl_cons]
    rw [min_assoc, ih]

theorem foldl_min_le (g : Move → JVal) (ms : List Move) :
    ∀ y : JVal, ms.foldl (fun a m => min a (g m)) y ≤ y := by
  induction ms with
  | nil => intro y; exact le_refl y
  | cons m ms ih =>
    intro y
    simp only [List.foldl_cons]
    exact le_trans (ih _) (min_le_left _ _)

/-- Loop-level alpha-beta soundness, maximizing side: if every child agrees
with its unpruned value once clamped to the current window, the pruned
sibling loop agrees (clamped) with the plain max-fold of unpruned values. -/
theorem maxLoop_clamp (child : Move → JVal → JVal → JVal) (g : Move → JVal)
    (beta : JVal) :
    ∀ (ms : List Move) (acc alpha : JVal), alpha < beta →
      (∀ m ∈ ms, ∀ a : JVal, a < beta →
        clamp a beta (child m a beta) = clamp a beta (g m)) →
      clamp alpha beta (maxLoop child ms acc alpha beta) =
        clamp alpha beta (ms.foldl (fun a m => max a (g m)) acc) := by
  intro ms
  induction ms with
  | nil => intro acc alpha _ _; rfl
  | cons m ms ih =>
    intro acc alpha hab hchild
    have hclamp : clamp alpha beta (child m alpha beta) = clamp alpha beta (g m) :=
      hchild m (List.mem_cons_self m ms) alpha hab
    simp only [maxLoop, List.foldl_cons]
    set ev := child m alpha beta with hev
    set v := g m with hv
    by_cases hbr : beta ≤ max alpha ev
    · -- beta cutoff: both sides clamp to beta
      rw [if_pos hbr]
      have hbev : beta ≤ ev := by
        rcases le_max_iff.mp hbr with h | h
        · exact absurd h (not_le_of_lt hab)
        · exact h
      have hcev : clamp alpha beta ev = beta := by
        unfold clamp
        rw [min_eq_left hbev, max_eq_right (le_of_lt hab)]
      have hcv : clamp alpha beta v = beta := by rw [← hclamp]; exact hcev
      rw [clamp_max_distrib, hcev,
        max_eq_right (clamp_le_beta (le_of_lt hab) acc)]
      rw [max_comm acc v, foldl_max_shift, clamp_max_distrib, hcv,
        max_eq_left (clamp_le_beta (le_of_lt hab) _)]
    · -- no cutoff: recurse with the raised alpha
      rw [if_neg hbr]
      have hab' : max alpha ev < beta := lt_of_not_le hbr
      have hevb : ev ≤ beta := le_of_lt (lt_of_le_of_lt (le_max_right alpha ev) hab')
      have h1 : clamp alpha beta (maxLoop child ms (max acc ev) (max alpha ev) beta) =
          clamp (max alpha ev) beta (maxLoop child ms (max acc ev) (max alpha ev) beta) := by
        rw [clamp_raise_alpha alpha hevb
          (le_trans (le_max_right acc ev) (le_maxLoop child ms _ _ _))]
      have h2 : clamp (max alpha ev) beta (ms.foldl (fun a m => max a (g m)) (max acc ev)) =
          clamp alpha beta (ms.foldl (fun a m => max a (g m)) (max acc ev)) := by
        rw [clamp_raise_alpha alpha hevb
          (le_trans (le_max_right acc ev) (le_foldl_max g ms _))]
      rw [h1, ih (max acc ev) (max alpha ev) hab'
        (fun m' hm' => hchild m' (List.mem_cons_of_mem m hm')), h2]
      rw [max_comm acc ev, foldl_max_shift, max_comm acc v, foldl_max_shift,
        clamp_max_distrib, clamp_max_distrib, hclamp]

/-- Loop-level alpha-beta soundness, minimizing side. -/
theorem minLoop_clamp (child : Move → JVal → JVal → JVal) (g : Move → JVal)
    (alpha : JVal) :
    ∀ (ms : List Move) (acc beta : JVal), alpha < beta →
      (∀ m ∈ ms, ∀ b : JVal, alpha < b →
        clamp alpha b (child m alpha b) = clamp alpha b (g m)) →
      clamp alpha beta (minLoop child ms acc alpha beta) =
        clamp alpha beta (ms.foldl (fun a m => min a (g m)) acc) := by
  intro ms
  induction ms with
  | nil => intro acc beta _ _; rfl
  | cons m ms ih =>
    intro acc beta hab hchild
    have hclamp : clamp alpha beta (child m alpha beta) = clamp alpha beta (g m) :=
      hchild m (List.mem_cons_self m ms) beta hab
    simp only [minLoop, List.foldl_cons]
    set ev := child m alpha beta with hev
    set v := g m with hv
    by_cases hbr : min beta ev ≤ alpha
    · -- alpha cutoff: both sides clamp to alpha
      rw [if_pos hbr]
      have haev : ev ≤ alpha := by
        rcases min_le_iff.mp hbr with h | h
        · exact absurd h (not_le_of_lt hab)
        · exact h
      have hcev : clamp alpha beta ev = alpha := by
        unfold clamp
        rw [min_eq_right (le_trans haev (le_of_lt hab)), max_eq_left haev]
      have hcv : clamp alpha beta v = alpha := by rw [← hclamp]; exact hcev
      rw [clamp_min_distrib, hcev,
        min_eq_right (alpha_le_clamp alpha beta acc)]
      rw [min_comm acc v, foldl_min_shift, clamp_min_distrib, hcv,
        min_eq_left (alpha_le_clamp alpha beta _)]
    · -- no cutoff: recurse with the lowered beta
      rw [if_neg hbr]
      have hab' : alpha < min beta ev := lt_of_not_le hbr
      have haev : alpha ≤ ev := le_of_lt (lt_of_lt_of_le hab' (min_le_right beta ev))
      have h1 : clamp alpha beta (minLoop child ms (min acc ev) alpha (min beta ev)) =
          clamp alpha (min beta ev) (minLoop child ms (min acc ev) alpha (min beta ev)) := by
        rw [clamp_lower_beta beta haev
          (le_trans (minLoop_le child ms _ _ _) (min_le_right acc ev))]
      have h2 : clamp alpha (min beta ev) (ms.foldl (fun a m => min a (g m)) (min acc ev)) =
          clamp alpha beta (ms.foldl (fun a m => min a (g m)) (min acc ev)) := by
        rw [clamp_lower_beta beta haev
          (le_trans (foldl_min_le g ms _) (min_le_right acc ev))]
      rw [h1, ih (min acc ev) (min beta ev) hab'
        (fun m' hm' => hchild m' (List.mem_cons_of_mem m hm')), h2]
      rw [min_comm acc ev, foldl_min_shift, min_comm acc v, foldl_min_shift,
        clamp_min_distrib, clamp_min_distrib, hclamp]

/-- Node-level alpha-beta soundness: clamped to any window, the pruned
search value equals the unpruned, unordered minimax value. -/
theorem minimax_clamp (E : Engine Pos Move) :
    ∀ (d : ℕ) (P : Pos) (alpha beta : JVal) (maxing : Bool), alpha < beta →
      clamp alpha beta (minimax E d P alpha beta maxing) =
        clamp alpha beta (minimaxFull E d P maxing) := by
  intro d
  induction d with
  | zero => intro P alpha beta maxing _; rfl
  | succ d ih =>
    intro P alpha beta maxing hab
    by_cases hgo : E.isGameOver P
    · simp only [minimax, minimaxFull, hgo, if_true]
    · have hperm : List.Perm (sortMovesCapturesFirst E (E.moves P)) (E.moves P) :=
        List.perm_insertionSort _ _
      cases maxing with
      | true =>
        simp only [minimax, minimaxFull, hgo, Bool.false_eq_true, if_false,
          eq_self_iff_true, if_true]
        rw [maxLoop_clamp (fun m a b => minimax E d (E.move P m) a b false)
          (fun m => minimaxFull E d (E.move P m) false) beta _ JVal.negInf alpha hab
          (fun m _ a ha => ih (E.move P m) a beta false ha)]
        congr 1
        exact hperm.foldl_eq'
          (fun x _ y _ z => Max.right_comm z (minimaxFull E d (E.move P x) false)
            (minimaxFull E d (E.move P y) false)) JVal.negInf
      | false =>
        simp only [minimax, minimaxFull, hgo, Bool.false_eq_true, if_false]
        rw [minLoop_clamp (fun m a b => minimax E d (E.move P m) a b true)
          (fun m => minimaxFull E d (E.move P m) true) alpha _ JVal.posInf beta hab
          (fun m _ b hb => ih (E.move P m) alpha b true hb)]
        congr 1
        exact hperm.foldl_eq'
          (fun x _ y _ z => min_right_comm z (minimaxFull E d (E.move P x) true)
            (minimaxFull E d (E.move P y) true)) JVal.posInf

/-- With the full window the pruned and unpruned values agree exactly. -/
theorem minimax_eq_full (E : Engine Pos Move) (d : ℕ) (P : Pos) (maxing : Bool) :
    minimax E d P JVal.negInf JVal.posInf maxing = minimaxFull E d P maxing := by
  have h := minimax_clamp E d P JVal.negInf JVal.posInf maxing JVal.negInf_lt_posInf
  rwa [clamp_full, clamp_full] at h

/-- The value component of the maximizing root loop is the running maximum of
the child values over the initial `bestValue`. -/
theorem bestLoop_snd_max (child : Move → JVal) :
    ∀ (ms : List Move) (bm : Move) (bv : JVal),
      (bestLoop child true ms bm bv).2 = ms.foldl (fun a m => max a (child m)) bv := by
  intro ms
  induction ms with
  | nil => intro bm bv; rfl
  | cons m ms ih =>
    intro bm bv
    simp only [bestLoop, List.foldl_cons, eq_self_iff_true, if_true]
    by_cases h : bv < child m
    · rw [if_pos h, ih, max_eq_right (le_of_lt h)]
    · rw [if_neg h, ih, max_eq_left (le_of_not_lt h)]

/-- The value component of the minimizing root loop is the running minimum of
the child values over the initial `bestValue`. -/
theorem bestLoop_snd_min (child : Move → JVal) :
    ∀ (ms : List Move) (bm : Move) (bv : JVal),
      (bestLoop child false ms bm bv).2 = ms.foldl (fun a m => min a (child m)) bv := by
  intro ms
  induction ms with
  | nil => intro bm bv; rfl
  | cons m ms ih =>
    intro bm bv
    simp only [bestLoop, Bool.false_eq_true, if_false, List.foldl_cons]
    by_cases h : child m < bv
    · rw [if_pos h, ih, min_eq_right (le_of_lt h)]
    · rw [if_neg h, ih, min_eq_left (le_of_not_lt h)]

/-- **C1.** For every position and every depth `1 ≤ d ≤ 4`, the evaluation
returned by `findBestMove` equals the root value of the unpruned full minimax
(no alpha-beta cutoffs, no capture-first ordering) over the same game tree of
depth `d`: pruning and move ordering change only how many nodes are visited,
never the returned value. -/
theorem findBestMove_eval_eq_unpruned (E : Engine Pos Move) (P : Pos) (d : ℕ)
    (h1 : 1 ≤ d) (h4 : d ≤ 4) :
    (findBestMove E P d).2 = fullRootValue E P d := by
  unfold findBestMove fullRootValue
  cases hm : E.moves P with
  | nil => rfl
  | cons m₀ rest =>
    have hperm : List.Perm (sortMovesCapturesFirst E (m₀ :: rest)) (m₀ :: rest) :=
      List.perm_insertionSort _ _
    cases hturn : E.turn P with
    | w =>
      dsimp only
      have hd : decide (Color.w = Color.w) = true := rfl
      rw [hd, if_pos rfl, if_pos rfl]
      simp only [Bool.not_true]
      rw [bestLoop_snd_max]
      have hfun :
          (fun (a : JVal) (m : Move) =>
              max a (minimax E (d - 1) (E.move P m) JVal.negInf JVal.posInf false)) =
            fun (a : JVal) (m : Move) =>
              max a (minimaxFull E (d - 1) (E.move P m) false) := by
        funext a m
        rw [minimax_eq_full]
      rw [hfun]
      exact hperm.foldl_eq'
        (fun x _ y _ z => Max.right_comm z (minimaxFull E (d - 1) (E.move P x) false)
          (minimaxFull E (d - 1) (E.move P y) false)) JVal.negInf
    | b =>
      dsimp only
      have hne : ¬ (Color.b = Color.w) := fun h => Color.noConfusion h
      have hd : decide (Color.b = Color.w) = false := rfl
      rw [hd, if_neg hne]
      simp only [Bool.false_eq_true, if_false, Bool.not_false]
      rw [bestLoop_snd_min]
      have hfun :
          (fun (a : JVal) (m : Move) =>
              min a (minimax E (d - 1) (E.move P m) JVal.negInf JVal.posInf true)) =
            fun (a : JVal) (m : Move) =>
              min a (minimaxFull E (d - 1) (E.move P m) true) := by
        funext a m
        rw [minimax_eq_full]
      rw [hfun]
      exact hperm.foldl_eq'
        (fun x _ y _ z => min_right_comm z (minimaxFull E (d - 1) (E.move P x) true)
          (minimaxFull E (d - 1) (E.move P y) true)) JVal.posInf

/-- Witness for `findBestMove_eval_eq_unpruned` at a concrete engine and
depth. -/
theorem findBestMove_eval_eq_unpruned_witness :
    (1 ≤ 2 ∧ 2 ≤ 4) ∧
      (findBestMove twoMoveEngine () 2).2 = fullRootValue twoMoveEngine () 2 :=
  ⟨⟨by decide, by decide⟩,
    findBestMove_eval_eq_unpruned twoMoveEngine () 2 (by decide) (by decide)⟩

/-- **C4.** At depth 0 — for arbitrary window and maximizing flag — and on
any position the rules engine reports as game over, `minimax` returns the
static evaluation immediately. -/
theorem minimax_terminal_eval (E : Engine Pos Move) (P : Pos) (d : ℕ)
    (alpha beta : JVal) (maxing : Bool)
    (h : d = 0 ∨ E.isGameOver P = true) :
    minimax E d P alpha beta maxing = JVal.num (evaluateBoard (E.board P)) := by
  rcases h with rfl | h
  · rfl
  · cases d with
    | zero => rfl
    | succ d => simp only [minimax, h, eq_self_iff_true, if_true]

/-- Witness for `minimax_terminal_eval` at a concrete game-over position. -/
theorem minimax_terminal_eval_witness :
    ((3 : ℕ) = 0 ∨ unitEngine.isGameOver () = true) ∧
      minimax unitEngine 3 () JVal.negInf JVal.posInf true
        = JVal.num (evaluateBoard (unitEngine.board ())) :=
  ⟨Or.inr rfl, minimax_terminal_eval unitEngine () 3 JVal.negInf JVal.posInf true (Or.inr rfl)⟩

/-- **C5.** On a position with zero legal moves, `findBestMove` returns an
absent move paired with the static evaluation, and `findTopMoves` returns the
empty list, for every depth and every count. -/
theorem no_legal_moves_contract (E : Engine Pos Move) (P : Pos)
    (h : E.moves P = []) (d count : ℕ) :
    findBestMove E P d = (none, JVal.num (evaluateBoard (E.board P))) ∧
      findTopMoves E P d count = [] := by
  constructor
  · unfold findBestMove
    rw [h]
  · unfold findTopMoves
    simp [h]

/-- Witness for `no_legal_moves_contract` on a concrete no-move position. -/
theorem no_legal_moves_contract_witness :
    unitEngine.moves () = [] ∧
      (findBestMove unitEngine () 0 = (none, JVal.num (evaluateBoard (unitEngine.board ()))) ∧
        findTopMoves unitEngine () 0 5 = []) :=
  ⟨rfl, no_legal_moves_contract unitEngine () rfl 0 5⟩

/-! ### The search value is always finite (C10) -/

theorem JVal.num_le_num {a b : ℤ} (h : a ≤ b) : JVal.num a ≤ JVal.num b := h

theorem JVal.max_num (a b : ℤ) :
    max (JVal.num a) (JVal.num b) = JVal.num (max a b) := by
  rcases le_total a b with h | h
  · rw [max_eq_right (JVal.num_le_num h), max_eq_right h]
  · rw [max_eq_left (JVal.num_le_num h), max_eq_left h]

theorem JVal.min_num (a b : ℤ) :
    min (JVal.num a) (JVal.num b) = JVal.num (min a b) := by
  rcases le_total a b with h | h
  · rw [min_eq_left (JVal.num_le_num h), min_eq_left h]
  · rw [min_eq_right (JVal.num_le_num h), min_eq_right h]

theorem maxLoop_num (child : Move → JVal → JVal → JVal)
    (hchild : ∀ (m : Move) (alpha beta : JVal), ∃ n, child m alpha beta = JVal.num n) :
    ∀ (ms : List Move) (alpha beta : JVal) (n0 : ℤ),
      ∃ n, maxLoop child ms (JVal.num n0) alpha beta = JVal.num n := by
  intro ms
  induction ms with
  | nil => intro alpha beta n0; exact ⟨n0, rfl⟩
  | cons m ms ih =>
    intro alpha beta n0
    obtain ⟨ne, he⟩ := hchild m alpha beta
    simp only [maxLoop, he, JVal.max_num]
    split
    · exact ⟨_, rfl⟩
    · exact ih _ _ _

theorem minLoop_num (child : Move → JVal → JVal → JVal)
    (hchild : ∀ (m : Move) (alpha beta : JVal), ∃ n, child m alpha beta = JVal.num n) :
    ∀ (ms : List Move) (alpha beta : JVal) (n0 : ℤ),
      ∃ n, minLoop child ms (JVal.num n0) alpha beta = JVal.num n := by
  intro ms
  induction ms with
  | nil => intro alpha beta n0; exact ⟨n0, rfl⟩
  | cons m ms ih =>
    intro alpha beta n0
    obtain ⟨ne, he⟩ := hchild m alpha beta
    simp only [minLoop, he, JVal.min_num]
    split
    · exact ⟨_, rfl⟩
    · exact ih _ _ _

theorem maxLoop_num_negInf (child : Move → JVal → JVal → JVal)
    (hchild : ∀ (m : Move) (alpha beta : JVal), ∃ n, child m alpha beta = JVal.num n)
    (m : Move) (ms : List Move) (alpha beta : JVal) :
    ∃ n, maxLoop child (m :: ms) JVal.negInf alpha beta = JVal.num n := by
  obtain ⟨ne, he⟩ := hchild m alpha beta
  simp only [maxLoop, he, max_eq_right (JVal.negInf_le (JVal.num ne))]
  split
  · exact ⟨ne, rfl⟩
  · exact maxLoop_num child hchild ms _ _ _

theorem minLoop_num_posInf (child : Move → JVal → JVal → JVal)
    (hchild : ∀ (m : Move) (alpha beta : JVal), ∃ n, child m alpha beta = JVal.num n)
    (m : Move) (ms : List Move) (alpha beta : JVal) :
    ∃ n, minLoop child (m :: ms) JVal.posInf alpha beta = JVal.num n := by
  obtain ⟨ne, he⟩ := hchild m alpha beta
  simp only [minLoop, he, min_eq_right (JVal.le_posInf (JVal.num ne))]
  split
  · exact ⟨ne, rfl⟩
  · exact minLoop_num child hchild ms _ _ _

/-- `minimax` returns a finite value under the rules-engine precondition that
a position without legal moves is reported as game over. -/
theorem minimax_num (E : Engine Pos Move)
    (Hprec : ∀ Q : Pos, E.moves Q = [] → E.isGameOver Q = true) :
    ∀ (d : ℕ) (P : Pos) (alpha beta : JVal) (maxing : Bool),
      ∃ n, minimax E d P alpha beta maxing = JVal.num n := by
  intro d
  induction d with
  | zero => intro P _ _ _; exact ⟨_, rfl⟩
  | succ d ih =>
    intro P alpha beta maxing
    by_cases hgo : E.isGameOver P = true
    · exact ⟨evaluateBoard (E.board P),
        by simp only [minimax, hgo, eq_self_iff_true, if_true]⟩
    · have hne : E.moves P ≠ [] := fun h => hgo (Hprec P h)
      cases hs : sortMovesCapturesFirst E (E.moves P) with
      | nil =>
        exfalso
        have hlen := List.length_insertionSort (capturesFirst E) (E.moves P)
        rw [show List.insertionSort (capturesFirst E) (E.moves P)
            = sortMovesCapturesFirst E (E.moves P) from rfl, hs] at hlen
        exact hne (List.eq_nil_of_length_eq_zero hlen.symm)
      | cons m ms =>
        simp only [minimax, hgo, Bool.false_eq_true, if_false, hs]
        cases maxing with
        | true =>
          simp only [eq_self_iff_true, if_true]
          exact maxLoop_num_negInf _ (fun m' a b => ih (E.move P m') a b false)
            m ms alpha beta
        | false =>
          simp only [Bool.false_eq_true, if_false]
          exact minLoop_num_posInf _ (fun m' a b => ih (E.move P m') a b true)
            m ms alpha beta

theorem foldl_max_num (g : Move → JVal) (hg : ∀ m, ∃ n, g m = JVal.num n) :
    ∀ (ms : List Move) (n0 : ℤ),
      ∃ n, ms.foldl (fun a m => max a (g m)) (JVal.num n0) = JVal.num n := by
  intro ms
  induction ms with
  | nil => intro n0; exact ⟨n0, rfl⟩
  | cons m ms ih =>
    intro n0
    obtain ⟨ne, he⟩ := hg m
    simp only [List.foldl_cons, he, JVal.max_num]
    exact ih _

theorem foldl_min_num (g : Move → JVal) (hg : ∀ m, ∃ n, g m = JVal.num n) :
    ∀ (ms : List Move) (n0 : ℤ),
      ∃ n, ms.foldl (fun a m => min a (g m)) (JVal.num n0) = JVal.num n := by
  intro ms
  induction ms with
  | nil => intro n0; exact ⟨n0, rfl⟩
  | cons m ms ih =>
    intro n0
    obtain ⟨ne, he⟩ := hg m
    simp only [List.foldl_cons, he, JVal.min_num]
    exact ih _

theorem findBestMove_fst_cons (E : Engine Pos Move) (P : Pos) (d : ℕ)
    (m₀ : Move) (rest : List Move) (hm : E.moves P = m₀ :: rest) :
    (findBestMove E P d).1 =
      some ((bestLoop (rootChild E P d) (decide (E.turn P = Color.w))
        (sortMovesCapturesFirst E (m₀ :: rest))
        ((sortMovesCapturesFirst E (m₀ :: rest)).headD m₀)
        (if decide (E.turn P = Color.w) then JVal.negInf else JVal.posInf)).1) := by
  unfold findBestMove
  rw [hm]
  rfl

theorem findBestMove_snd_cons (E : Engine Pos Move) (P : Pos) (d : ℕ)
    (m₀ : Move) (rest : List Move) (hm : E.moves P = m₀ :: rest) :
    (findBestMove E P d).2 =
      (bestLoop (rootChild E P d) (decide (E.turn P = Color.w))
        (sortMovesCapturesFirst E (m₀ :: rest))
        ((sortMovesCapturesFirst E (m₀ :: rest)).headD m₀)
        (if decide (E.turn P = Color.w) then JVal.negInf else JVal.posInf)).2 := by
  unfold findBestMove
  rw [hm]
  rfl

/-- **C10.** Under the rules-engine precondition that a position with no
legal moves is reported game over, `minimax` never returns an infinite
sentinel — the `-Infinity`/`+Infinity` accumulator is always replaced by a
finite evaluation — and consequently `findBestMove` on a position with at
least one legal move returns a finite evaluation. -/
theorem search_value_finite (E : Engine Pos Move)
    (Hprec : ∀ Q : Pos, E.moves Q = [] → E.isGameOver Q = true) :
    (∀ (d : ℕ) (P : Pos) (alpha beta : JVal) (maxing : Bool),
      minimax E d P alpha beta maxing ≠ JVal.posInf ∧
      minimax E d P alpha beta maxing ≠ JVal.negInf) ∧
    (∀ (P : Pos) (d : ℕ), E.moves P ≠ [] →
      ∃ n : ℤ, (findBestMove E P d).2 = JVal.num n) := by
  constructor
  · intro d P alpha beta maxing
    obtain ⟨n, hn⟩ := minimax_num E Hprec d P alpha beta maxing
    rw [hn]
    exact ⟨fun h => JVal.noConfusion h, fun h => JVal.noConfusion h⟩
  · intro P d hne
    cases hm : E.moves P with
    | nil => exact absurd hm hne
    | cons m₀ rest =>
      rw [findBestMove_snd_cons E P d m₀ rest hm]
      have hchild : ∀ m : Move, ∃ n : ℤ, rootChild E P d m = JVal.num n :=
        fun m => minimax_num E Hprec (d - 1) (E.move P m) _ _ _
      cases hs : sortMovesCapturesFirst E (m₀ :: rest) with
      | nil =>
        exfalso
        have hlen := List.length_insertionSort (capturesFirst E) (m₀ :: rest)
        rw [show List.insertionSort (capturesFirst E) (m₀ :: rest)
            = sortMovesCapturesFirst E (m₀ :: rest) from rfl, hs] at hlen
        exact List.noConfusion (List.eq_nil_of_length_eq_zero hlen.symm)
      | cons s ss =>
        obtain ⟨n, hn⟩ := hchild s
        cases hb : decide (E.turn P = Color.w) with
        | true =>
          simp only [eq_self_iff_true, if_true]
          rw [bestLoop_snd_max, List.foldl_cons, hn,
            max_eq_right (JVal.negInf_le (JVal.num n))]
          exact foldl_max_num _ hchild ss n
        | false =>
          simp only [Bool.false_eq_true, if_false]
          rw [bestLoop_snd_min, List.foldl_cons, hn,
            min_eq_right (JVal.le_posInf (JVal.num n))]
          exact foldl_min_num _ hchild ss n

/-- Witness for `search_value_finite` at a concrete engine whose positions
always have legal moves. -/
theorem search_value_finite_witness :
    (∀ Q : Unit, twoMoveEngine.moves Q = [] → twoMoveEngine.isGameOver Q = true) ∧
      ((∀ (d : ℕ) (P : Unit) (alpha beta : JVal) (maxing : Bool),
        minimax twoMoveEngine d P alpha beta maxing ≠ JVal.posInf ∧
        minimax twoMoveEngine d P alpha beta maxing ≠ JVal.negInf) ∧
      (∀ (P : Unit) (d : ℕ), twoMoveEngine.moves P ≠ [] →
        ∃ n : ℤ, (findBestMove twoMoveEngine P d).2 = JVal.num n)) :=
  ⟨fun _ h => List.noConfusion h,
    search_value_finite twoMoveEngine (fun _ h => List.noConfusion h)⟩

/-- Characterization of the maximizing root loop: either no move ever beat
the initial `bestValue` (and the initial `bestMove` survives), or the
returned move is an element of the list whose value is the returned value,
every earlier element being strictly worse. -/
theorem bestLoop_argmax_max (child : Move → JVal) :
    ∀ (ms : List Move) (bm : Move) (bv : JVal),
      ((bestLoop child true ms bm bv).1 = bm ∧ (bestLoop child true ms bm bv).2 = bv ∧
        ∀ x ∈ ms, child x ≤ bv) ∨
      (∃ pre post, ms = pre ++ (bestLoop child true ms bm bv).1 :: post ∧
        child (bestLoop child true ms bm bv).1 = (bestLoop child true ms bm bv).2 ∧
        bv < (bestLoop child true ms bm bv).2 ∧
        ∀ x ∈ pre, child x < (bestLoop child true ms bm bv).2) := by
  intro ms
  induction ms with
  | nil =>
    intro bm bv
    exact Or.inl ⟨rfl, rfl, fun x hx => absurd hx (List.not_mem_nil x)⟩
  | cons m ms ih =>
    intro bm bv
    by_cases h : bv < child m
    · have hred : bestLoop child true (m :: ms) bm bv = bestLoop child true ms m (child m) := by
        simp only [bestLoop, eq_self_iff_true, if_true, if_pos h]
      rw [hred]
      rcases ih m (child m) with ⟨h1, h2, h3⟩ | ⟨pre, post, hdec, hval, hlt, hpre⟩
      · refine Or.inr ⟨[], ms, ?_, ?_, ?_, ?_⟩
        · rw [List.nil_append, h1]
        · rw [h1, h2]
        · rw [h2]; exact h
        · intro x hx; exact absurd hx (List.not_mem_nil x)
      · refine Or.inr ⟨m :: pre, post, ?_, hval, lt_trans h hlt, ?_⟩
        · rw [List.cons_append, ← hdec]
        · intro x hx
          rcases List.mem_cons.mp hx with rfl | hx
          · exact hlt
          · exact hpre x hx
    · have hred : bestLoop child true (m :: ms) bm bv = bestLoop child true ms bm bv := by
        simp only [bestLoop, eq_self_iff_true, if_true, if_neg h]
      rw [hred]
      rcases ih bm bv with ⟨h1, h2, h3⟩ | ⟨pre, post, hdec, hval, hlt, hpre⟩
      · refine Or.inl ⟨h1, h2, ?_⟩
        intro x hx
        rcases List.mem_cons.mp hx with rfl | hx
        · exact le_of_not_lt h
        · exact h3 x hx
      · refine Or.inr ⟨m :: pre, post, ?_, hval, hlt, ?_⟩
        · rw [List.cons_append, ← hdec]
        · intro x hx
          rcases List.mem_cons.mp hx with rfl | hx
          · exact lt_of_le_of_lt (le_of_not_lt h) hlt
          · exact hpre x hx

/-- Characterization of the minimizing root loop, dual to
`bestLoop_argmax_max`. -/
theorem bestLoop_argmin_min (child : Move → JVal) :
    ∀ (ms : List Move) (bm : Move) (bv : JVal),
      ((bestLoop child false ms bm bv).1 = bm ∧ (bestLoop child false ms bm bv).2 = bv ∧
        ∀ x ∈ ms, bv ≤ child x) ∨
      (∃ pre post, ms = pre ++ (bestLoop child false ms bm bv).1 :: post ∧
        child (bestLoop child false ms bm bv).1 = (bestLoop child false ms bm bv).2 ∧
        (bestLoop child false ms bm bv).2 < bv ∧
        ∀ x ∈ pre, (bestLoop child false ms bm bv).2 < child x) := by
  intro ms
  induction ms with
  | nil =>
    intro bm bv
    exact Or.inl ⟨rfl, rfl, fun x hx => absurd hx (List.not_mem_nil x)⟩
  | cons m ms ih =>
    intro bm bv
    by_cases h : child m < bv
    · have hred : bestLoop child false (m :: ms) bm bv = bestLoop child false ms m (child m) := by
        simp only [bestLoop, Bool.false_eq_true, if_false, if_pos h]
      rw [hred]
      rcases ih m (child m) with ⟨h1, h2, h3⟩ | ⟨pre, post, hdec, hval, hlt, hpre⟩
      · refine Or.inr ⟨[], ms, ?_, ?_, ?_, ?_⟩
        · rw [List.nil_append, h1]
        · rw [h1, h2]
        · rw [h2]; exact h
        · intro x hx; exact absurd hx (List.not_mem_nil x)
      · refine Or.inr ⟨m :: pre, post, ?_, hval, lt_trans hlt h, ?_⟩
        · rw [List.cons_append, ← hdec]
        · intro x hx
          rcases List.mem_cons.mp hx with rfl | hx
          · exact hlt
          · exact hpre x hx
    · have hred : bestLoop child false (m :: ms) bm bv = bestLoop child false ms bm bv := by
        simp only [bestLoop, Bool.false_eq_true, if_false, if_neg h]
      rw [hred]
      rcases ih bm bv with ⟨h1, h2, h3⟩ | ⟨pre, post, hdec, hval, hlt, hpre⟩
      · refine Or.inl ⟨h1, h2, ?_⟩
        intro x hx
        rcases List.mem_cons.mp hx with rfl | hx
        · exact le_of_not_lt h
        · exact h3 x hx
      · refine Or.inr ⟨m :: pre, post, ?_, hval, hlt, ?_⟩
        · rw [List.cons_append, ← hdec]
        · intro x hx
          rcases List.mem_cons.mp hx with rfl | hx
          · exact lt_of_lt_of_le hlt (le_of_not_lt h)
          · exact hpre x hx

/-- The capture-first sort of a non-empty list is non-empty. -/
theorem sortMoves_cons (E : Engine Pos Move) (m₀ : Move) (rest : List Move) :
    ∃ s ss, sortMovesCapturesFirst E (m₀ :: rest) = s :: ss := by
  cases hs : sortMovesCapturesFirst E (m₀ :: rest) with
  | nil =>
    exfalso
    have hlen := List.length_insertionSort (capturesFirst E) (m₀ :: rest)
    rw [show List.insertionSort (capturesFirst E) (m₀ :: rest)
        = sortMovesCapturesFirst E (m₀ :: rest) from rfl, hs] at hlen
    exact List.noConfusion (List.eq_nil_of_length_eq_zero hlen.symm)
  | cons s ss => exact ⟨s, ss, rfl⟩

/-- **C2.** On a position with at least one legal move and depth `d ≥ 1`,
`findBestMove` returns a legal move together with the maximum (White to move)
or minimum (Black to move), over all legal root moves, of the full-window
search value of the child position at depth `d − 1`; the returned move is the
first move attaining that value in the capture-first root ordering — a later
move of merely equal value never replaces it. -/
theorem findBestMove_spec (E : Engine Pos Move) (P : Pos) (d : ℕ)
    (hd : 1 ≤ d) (hne : E.moves P ≠ []) :
    ∃ m : Move, (findBestMove E P d).1 = some m ∧ m ∈ E.moves P ∧
      (findBestMove E P d).2 =
        (if E.turn P = Color.w
         then (E.moves P).foldl (fun a x => max a (rootChild E P d x)) JVal.negInf
         else (E.moves P).foldl (fun a x => min a (rootChild E P d x)) JVal.posInf) ∧
      ∃ pre post,
        sortMovesCapturesFirst E (E.moves P) = pre ++ m :: post ∧
        rootChild E P d m = (findBestMove E P d).2 ∧
        ∀ x ∈ pre, rootChild E P d x ≠ (findBestMove E P d).2 := by
  cases hm : E.moves P with
  | nil => exact absurd hm hne
  | cons m₀ rest =>
    obtain ⟨s, ss, hs⟩ := sortMoves_cons E m₀ rest
    have hperm : List.Perm (sortMovesCapturesFirst E (m₀ :: rest)) (m₀ :: rest) :=
      List.perm_insertionSort _ _
    rw [findBestMove_fst_cons E P d m₀ rest hm, findBestMove_snd_cons E P d m₀ rest hm]
    cases hb : decide (E.turn P = Color.w) with
    | true =>
      rw [if_pos (of_decide_eq_true hb)]
      simp only [eq_self_iff_true, if_true]
      rw [hs, List.headD_cons]
      have hperm' : List.Perm (s :: ss) (m₀ :: rest) := hs ▸ hperm
      have hval2 := bestLoop_snd_max (rootChild E P d) (s :: ss) s JVal.negInf
      have harg := bestLoop_argmax_max (rootChild E P d) (s :: ss) s JVal.negInf
      generalize hbl : bestLoop (rootChild E P d) true (s :: ss) s JVal.negInf = r at hval2 harg ⊢
      have hval3 : r.2 =
          (m₀ :: rest).foldl (fun a x => max a (rootChild E P d x)) JVal.negInf := by
        rw [hval2]
        exact hperm'.foldl_eq'
          (fun x _ y _ z => Max.right_comm z (rootChild E P d x) (rootChild E P d y))
          JVal.negInf
      rcases harg with ⟨h1, h2, h3⟩ | ⟨pre, post, hdec, hv, hlt, hpre⟩
      · refine ⟨s, by rw [h1], ?_, hval3, [], ss, rfl, ?_, ?_⟩
        · exact hperm'.mem_iff.mp (List.mem_cons_self s ss)
        · rw [h2, le_antisymm (h3 s (List.mem_cons_self s ss)) (JVal.negInf_le _)]
        · intro x hx; exact absurd hx (List.not_mem_nil x)
      · refine ⟨r.1, rfl, ?_, hval3, pre, post, hdec, hv, ?_⟩
        · refine hperm'.mem_iff.mp ?_
          rw [hdec]
          exact List.mem_append.mpr (Or.inr (List.mem_cons_self _ _))
        · intro x hx
          exact ne_of_lt (hpre x hx)
    | false =>
      have hnw : ¬ (E.turn P = Color.w) := of_decide_eq_false hb
      rw [if_neg hnw]
      simp only [Bool.false_eq_true, if_false]
      rw [hs, List.headD_cons]
      have hperm' : List.Perm (s :: ss) (m₀ :: rest) := hs ▸ hperm
      have hval2 := bestLoop_snd_min (rootChild E P d) (s :: ss) s JVal.posInf
      have harg := bestLoop_argmin_min (rootChild E P d) (s :: ss) s JVal.posInf
      generalize hbl : bestLoop (rootChild E P d) false (s :: ss) s JVal.posInf = r at hval2 harg ⊢
      have hval3 : r.2 =
          (m₀ :: rest).foldl (fun a x => min a (rootChild E P d x)) JVal.posInf := by
        rw [hval2]
        exact hperm'.foldl_eq'
          (fun x _ y _ z => min_right_comm z (rootChild E P d x) (rootChild E P d y))
          JVal.posInf
      rcases harg with ⟨h1, h2, h3⟩ | ⟨pre, post, hdec, hv, hlt, hpre⟩
      · refine ⟨s, by rw [h1], ?_, hval3, [], ss, rfl, ?_, ?_⟩
        · exact hperm'.mem_iff.mp (List.mem_cons_self s ss)
        · rw [h2, le_antisymm (JVal.le_posInf _) (h3 s (List.mem_cons_self s ss))]
        · intro x hx; exact absurd hx (List.not_mem_nil x)
      · refine ⟨r.1, rfl, ?_, hval3, pre, post, hdec, hv, ?_⟩
        · refine hperm'.mem_iff.mp ?_
          rw [hdec]
          exact List.mem_append.mpr (Or.inr (List.mem_cons_self _ _))
        · intro x hx
          exact Ne.symm (ne_of_lt (hpre x hx))

/-- Witness for `findBestMove_spec` at a concrete engine with two root
moves. -/
theorem findBestMove_spec_witness :
    (1 ≤ 1 ∧ twoMoveEngine.moves () ≠ []) ∧
      (∃ m : Bool, (findBestMove twoMoveEngine () 1).1 = some m ∧
        m ∈ twoMoveEngine.moves () ∧
        (findBestMove twoMoveEngine () 1).2 =
          (if twoMoveEngine.turn () = Color.w
           then (twoMoveEngine.moves ()).foldl
             (fun a x => max a (rootChild twoMoveEngine () 1 x)) JVal.negInf
           else (twoMoveEngine.moves ()).foldl
             (fun a x => min a (rootChild twoMoveEngine () 1 x)) JVal.posInf) ∧
        ∃ pre post,
          sortMovesCapturesFirst twoMoveEngine (twoMoveEngine.moves ()) = pre ++ m :: post ∧
          rootChild twoMoveEngine () 1 m = (findBestMove twoMoveEngine () 1).2 ∧
          ∀ x ∈ pre, rootChild twoMoveEngine () 1 x ≠ (findBestMove twoMoveEngine () 1).2) :=
  ⟨⟨le_refl 1, fun h => List.noConfusion h⟩,
    findBestMove_spec twoMoveEngine () 1 (le_refl 1) (fun h => List.noConfusion h)⟩

/-- Inserting an element into a list moves it past no element it ties with:
filtering afterwards, it lands in front. -/
theorem filter_orderedInsert {α : Type} (r : α → α → Prop) [DecidableRel r]
    (p : α → Bool) (x : α) (hx : ∀ y, p x = true → p y = true → r x y) :
    ∀ L : List α, (List.orderedInsert r x L).filter p =
      if p x then x :: L.filter p else L.filter p := by
  intro L
  induction L with
  | nil =>
    cases hpx : p x <;> simp [List.orderedInsert, List.filter, hpx]
  | cons y ys ih =>
    simp only [List.orderedInsert]
    by_cases hr : r x y
    · rw [if_pos hr]
      cases hpx : p x <;> simp [List.filter_cons, hpx]
    · rw [if_neg hr]
      cases hpy : p y with
      | true =>
        have hpx : p x = false := by
          cases hpx : p x with
          | false => rfl
          | true => exact absurd (hx y hpx hpy) hr
        simp [List.filter_cons, hpy, hpx, ih]
      | false =>
        cases hpx : p x <;> simp [List.filter_cons, hpy, hpx, ih]

/-- Stability of the insertion sort: elements whose key ties under `r` keep
their relative order, expressed through an arbitrary filter that only keeps
mutually-tied elements. -/
theorem filter_insertionSort {α : Type} (r : α → α → Prop) [DecidableRel r]
    (p : α → Bool) (hp : ∀ a b, p a = true → p b = true → r a b) :
    ∀ l : List α, (List.insertionSort r l).filter p = l.filter p := by
  intro l
  induction l with
  | nil => rfl
  | cons x xs ih =>
    simp only [List.insertionSort]
    rw [filter_orderedInsert r p x (fun y => hp x y)]
    cases hpx : p x <;> simp [List.filter_cons, hpx, ih]

/-- **C3.** `findTopMoves(P, d, count)` returns at most `count` entries —
exactly `min count (#legal moves)` — sorted by evaluation, descending when
White is to move and ascending when Black is; with `count` at least the
number of legal moves it contains every legal move exactly once; and ties
keep their enumeration order (stable sort): filtering any evaluation value,
the result is a prefix of the enumeration-ordered pairs with that value, and
the whole of it when nothing is truncated. -/
theorem findTopMoves_spec (E : Engine Pos Move) (P : Pos) (d count : ℕ)
    (hd : 1 ≤ d) :
    (findTopMoves E P d count).length = min count (E.moves P).length ∧
    (if E.turn P = Color.w
      then (findTopMoves E P d count).Pairwise (fun a b => b.2 ≤ a.2)
      else (findTopMoves E P d count).Pairwise (fun a b => a.2 ≤ b.2)) ∧
    ((E.moves P).length ≤ count →
      List.Perm ((findTopMoves E P d count).map Prod.fst) (E.moves P)) ∧
    (∀ v : JVal, ∃ tail,
      (moveEvaluations E P d).filter (fun e => decide (e.2 = v)) =
        (findTopMoves E P d count).filter (fun e => decide (e.2 = v)) ++ tail) ∧
    ((E.moves P).length ≤ count →
      ∀ v : JVal, (findTopMoves E P d count).filter (fun e => decide (e.2 = v)) =
        (moveEvaluations E P d).filter (fun e => decide (e.2 = v))) := by
  cases hm : E.moves P with
  | nil =>
    have h0 : findTopMoves E P d count = [] := by
      unfold findTopMoves; rw [hm]; rfl
    have h1 : moveEvaluations E P d = [] := by
      unfold moveEvaluations; rw [hm]; rfl
    refine ⟨by rw [h0]; simp, ?_, ?_, ?_, ?_⟩
    · rw [h0]; split <;> exact List.Pairwise.nil
    · intro _; rw [h0]; exact List.Perm.refl _
    · intro v; exact ⟨[], by rw [h0, h1]; rfl⟩
    · intro _ v; rw [h0, h1]
  | cons m₀ rest =>
    have hred : findTopMoves E P d count =
        (List.insertionSort (evalOrder (decide (E.turn P = Color.w)))
          ((m₀ :: rest).map (fun m => (m, rootChild E P d m)))).take count := by
      unfold findTopMoves
      rw [hm]
      rfl
    have hme : moveEvaluations E P d =
        (m₀ :: rest).map (fun m => (m, rootChild E P d m)) := by
      unfold moveEvaluations; rw [hm]
    have hperm : List.Perm
        (List.insertionSort (evalOrder (decide (E.turn P = Color.w)))
          ((m₀ :: rest).map (fun m => (m, rootChild E P d m))))
        ((m₀ :: rest).map (fun m => (m, rootChild E P d m))) :=
      List.perm_insertionSort _ _
    have hsorted := List.sorted_insertionSort
      (evalOrder (decide (E.turn P = Color.w)))
      ((m₀ :: rest).map (fun m => (m, rootChild E P d m)))
    have hlen : (List.insertionSort (evalOrder (decide (E.turn P = Color.w)))
        ((m₀ :: rest).map (fun m => (m, rootChild E P d m)))).length
        = (m₀ :: rest).length := by
      rw [List.length_insertionSort, List.length_map]
    refine ⟨?_, ?_, ?_, ?_, ?_⟩
    · rw [hred, List.length_take, hlen]
    · have htake : (findTopMoves E P d count).Pairwise
          (evalOrder (decide (E.turn P = Color.w))) := by
        rw [hred]
        exact List.Pairwise.sublist (List.take_sublist _ _) hsorted
      cases ht : E.turn P with
      | w =>
        rw [if_pos rfl]
        have : decide (E.turn P = Color.w) = true := decide_eq_true ht
        rw [this] at htake
        exact htake.imp (fun h => h)
      | b =>
        have hnw : ¬ (E.turn P = Color.w) := by
          rw [ht]; exact fun h => Color.noConfusion h
        rw [if_neg (show ¬ (Color.b = Color.w) from fun h => Color.noConfusion h)]
        have : decide (E.turn P = Color.w) = false := decide_eq_false hnw
        rw [this] at htake
        exact htake.imp (fun h => h)
    · intro hcount
      rw [hred, List.take_of_length_le (by rw [hlen]; exact hcount)]
      have hfst : ((m₀ :: rest).map (fun m => (m, rootChild E P d m))).map Prod.fst
          = m₀ :: rest := by
        rw [List.map_map]
        exact List.map_id' _
      have h2 := hperm.map Prod.fst
      rw [hfst] at h2
      exact h2
    · intro v
      refine ⟨((List.insertionSort (evalOrder (decide (E.turn P = Color.w)))
          ((m₀ :: rest).map (fun m => (m, rootChild E P d m)))).drop count).filter
          (fun e => decide (e.2 = v)), ?_⟩
      rw [hred, hme, ← List.filter_append, List.take_append_drop]
      rw [filter_insertionSort _ _ ?_]
      intro a b ha hb
      have ha' : a.2 = v := of_decide_eq_true ha
      have hb' : b.2 = v := of_decide_eq_true hb
      unfold evalOrder
      split
      · rw [ha', hb']
      · rw [ha', hb']
    · intro hcount v
      rw [hred, hme, List.take_of_length_le (by rw [hlen]; exact hcount)]
      rw [filter_insertionSort _ _ ?_]
      intro a b ha hb
      have ha' : a.2 = v := of_decide_eq_true ha
      have hb' : b.2 = v := of_decide_eq_true hb
      unfold evalOrder
      split
      · rw [ha', hb']
      · rw [ha', hb']

/-- Witness for `findTopMoves_spec` at a concrete engine and depth. -/
theorem findTopMoves_spec_witness :
    1 ≤ 1 ∧
      ((findTopMoves twoMoveEngine () 1 2).length
          = min 2 (twoMoveEngine.moves ()).length ∧
      (if twoMoveEngine.turn () = Color.w
        then (findTopMoves twoMoveEngine () 1 2).Pairwise (fun a b => b.2 ≤ a.2)
        else (findTopMoves twoMoveEngine () 1 2).Pairwise (fun a b => a.2 ≤ b.2)) ∧
      ((twoMoveEngine.moves ()).length ≤ 2 →
        List.Perm ((findTopMoves twoMoveEngine () 1 2).map Prod.fst)
          (twoMoveEngine.moves ())) ∧
      (∀ v : JVal, ∃ tail,
        (moveEvaluations twoMoveEngine () 1).filter (fun e => decide (e.2 = v)) =
          (findTopMoves twoMoveEngine () 1 2).filter (fun e => decide (e.2 = v)) ++ tail) ∧
      ((twoMoveEngine.moves ()).length ≤ 2 →
        ∀ v : JVal, (findTopMoves twoMoveEngine () 1 2).filter (fun e => decide (e.2 = v)) =
          (moveEvaluations twoMoveEngine () 1).filter (fun e => decide (e.2 = v)))) :=
  ⟨le_refl 1, findTopMoves_spec twoMoveEngine () 1 2 (le_refl 1)⟩

/-! ### The evaluation is a bounded exact integer (C9) -/

theorem foldl_add_eq (f : ℕ → ℤ) :
    ∀ (l : List ℕ) (init : ℤ),
      l.foldl (fun a x => a + f x) init = init + (l.map f).sum := by
  intro l
  induction l with
  | nil => intro init; simp
  | cons x xs ih =>
    intro init
    rw [List.foldl_cons, ih, List.map_cons, List.sum_cons, add_assoc]

theorem evaluateBoard_eq_sum (bd : BoardFn) :
    evaluateBoard bd = ((List.range 8).map (fun r =>
      ((List.range 8).map (fun c => squareScore bd r c)).sum)).sum := by
  unfold evaluateBoard
  have hfun : (fun (acc : ℤ) (row : ℕ) =>
        (List.range 8).foldl (fun acc2 col => acc2 + squareScore bd row col) acc) =
      fun (acc : ℤ) (row : ℕ) =>
        acc + ((List.range 8).map (fun c => squareScore bd row c)).sum := by
    funext acc row
    exact foldl_add_eq _ _ _
  rw [hfun, foldl_add_eq (fun r => ((List.range 8).map (fun c => squareScore bd r c)).sum),
    zero_add]

theorem list_range_map_sum (f : ℕ → ℤ) (n : ℕ) :
    ((List.range n).map f).sum = ∑ i ∈ Finset.range n, f i := by
  induction n with
  | zero => simp
  | succ n ih =>
    rw [List.range_succ, List.map_append, List.sum_append, Finset.sum_range_succ, ih]
    simp

theorem evaluateBoard_eq_finsum (bd : BoardFn) :
    evaluateBoard bd = ∑ r ∈ Finset.range 8, ∑ c ∈ Finset.range 8, squareScore bd r c := by
  rw [evaluateBoard_eq_sum, list_range_map_sum]
  apply Finset.sum_congr rfl
  intro r _
  rw [list_range_map_sum]

theorem list_sum_abs_le (b : ℤ) :
    ∀ l : List ℤ, (∀ x ∈ l, |x| ≤ b) → |l.sum| ≤ (l.length : ℤ) * b := by
  intro l
  induction l with
  | nil => intro _; simp
  | cons x xs ih =>
    intro h
    simp only [List.sum_cons, List.length_cons]
    calc |x + xs.sum| ≤ |x| + |xs.sum| := abs_add _ _
      _ ≤ b + (xs.length : ℤ) * b :=
        add_le_add (h x (List.mem_cons_self x xs))
          (ih fun y hy => h y (List.mem_cons_of_mem x hy))
      _ = ((xs.length : ℤ) + 1) * b := by ring
      _ = (((xs.length + 1 : ℕ)) : ℤ) * b := by push_cast; ring

theorem getD_abs_le (row : List ℤ) (b : ℤ) (hb : 0 ≤ b)
    (h : ∀ x ∈ row, |x| ≤ b) (c : ℕ) : |row.getD c 0| ≤ b := by
  by_cases hc : c < row.length
  · rw [List.getD_eq_getElem row 0 hc]
    exact h _ (List.getElem_mem hc)
  · rw [List.getD_eq_default row 0 (le_of_not_lt hc)]
    simpa using hb

theorem pstGet_abs_le (t : List (List ℤ)) (b : ℤ) (hb : 0 ≤ b)
    (ht : ∀ row ∈ t, ∀ x ∈ row, |x| ≤ b) (r c : ℕ) : |pstGet t r c| ≤ b := by
  unfold pstGet
  by_cases hr : r < t.length
  · rw [List.getD_eq_getElem t [] hr]
    exact getD_abs_le _ b hb (ht _ (List.getElem_mem hr)) c
  · rw [List.getD_eq_default t [] (le_of_not_lt hr)]
    simpa using hb

/-- Every piece-square table entry lies in `[-50, 50]`. -/
theorem psts_abs_le (k : PieceKind) (r c : ℕ) : |pstGet (PSTS k) r c| ≤ 50 := by
  cases k <;> exact pstGet_abs_le _ 50 (by decide) (by decide) r c

/-- Every square contributes at most `20000 + 50` in absolute value. -/
theorem squareScore_abs_le (bd : BoardFn) (r c : ℕ) : |squareScore bd r c| ≤ 20050 := by
  unfold squareScore
  cases h : bd r c with
  | none => simp
  | some piece =>
    rcases piece with ⟨k, col⟩
    have hm : |PIECE_VALUES k| ≤ 20000 := by cases k <;> decide
    cases col with
    | w =>
      simp only [eq_self_iff_true, if_true]
      calc |PIECE_VALUES k + pstGet (PSTS k) r c|
          ≤ |PIECE_VALUES k| + |pstGet (PSTS k) r c| := abs_add _ _
        _ ≤ 20000 + 50 := add_le_add hm (psts_abs_le k r c)
    | b =>
      have hne : ¬ (Color.b = Color.w) := fun hcc => Color.noConfusion hcc
      simp only [hne, if_false, abs_neg]
      calc |PIECE_VALUES k + pstGet (PSTS k) (7 - r) c|
          ≤ |PIECE_VALUES k| + |pstGet (PSTS k) (7 - r) c| := abs_add _ _
        _ ≤ 20000 + 50 := add_le_add hm (psts_abs_le k (7 - r) c)

/-- **C9.** For every board, the evaluation is an exact integer bounded by
`64 × 20050 = 1283200` in absolute value — well below `10^9` and within the
32-bit signed range — so the `±Infinity` sentinels of the search are strictly
outside every reachable evaluation. -/
theorem evaluateBoard_bounded (bd : BoardFn) :
    |evaluateBoard bd| ≤ 1283200 ∧
    |evaluateBoard bd| < 10 ^ 9 ∧
    |evaluateBoard bd| < 2 ^ 31 ∧
    JVal.negInf < JVal.num (evaluateBoard bd) ∧
    JVal.num (evaluateBoard bd) < JVal.posInf := by
  have hmain : |evaluateBoard bd| ≤ 1283200 := by
    rw [evaluateBoard_eq_sum]
    have hrow : ∀ r : ℕ,
        |((List.range 8).map (fun c => squareScore bd r c)).sum| ≤ 160400 := by
      intro r
      have h := list_sum_abs_le 20050 ((List.range 8).map (fun c => squareScore bd r c))
        (by
          intro x hx
          obtain ⟨c, _, rfl⟩ := List.mem_map.mp hx
          exact squareScore_abs_le bd r c)
      rw [List.length_map, List.length_range] at h
      calc |((List.range 8).map (fun c => squareScore bd r c)).sum|
          ≤ ((8 : ℕ) : ℤ) * 20050 := h
        _ = 160400 := by norm_num
    have h := list_sum_abs_le 160400
      ((List.range 8).map (fun r => ((List.range 8).map (fun c => squareScore bd r c)).sum))
      (by
        intro x hx
        obtain ⟨r, _, rfl⟩ := List.mem_map.mp hx
        exact hrow r)
    rw [List.length_map, List.length_range] at h
    calc |((List.range 8).map (fun r =>
            ((List.range 8).map (fun c => squareScore bd r c)).sum)).sum|
        ≤ ((8 : ℕ) : ℤ) * 160400 := h
      _ = 1283200 := by norm_num
  refine ⟨hmain, lt_of_le_of_lt hmain (by norm_num), lt_of_le_of_lt hmain (by norm_num),
    JVal.negInf_lt_num _, JVal.num_lt_posInf _⟩

/-- **C6 counterexample.** Mirroring only the colors does *not* negate the
evaluation: the piece-square tables are rank-mirrored for Black, so a White
pawn on row 1 (bonus 50) becomes a Black pawn scored from row 6 of the table
(bonus 5).  On `boardC6` the evaluation is 150 but the color-flipped board
evaluates to −105, not −150. -/
theorem colorFlip_not_negation :
    ¬ (evaluateBoard (colorFlip boardC6) = - evaluateBoard boardC6) := by decide

theorem squareScore_colorMirror (bd : BoardFn) (r c : ℕ) (hr : r < 8) :
    squareScore (colorMirror bd) r c = - squareScore bd (7 - r) c := by
  unfold squareScore colorMirror
  cases h : bd (7 - r) c with
  | none => simp [h]
  | some pc =>
    rcases pc with ⟨k, col⟩
    have h7 : 7 - (7 - r) = r := by omega
    cases col with
    | w =>
      simp [h, colorFlipPiece, flipColor]
    | b =>
      simp [h, colorFlipPiece, flipColor, h7]

/-- **C6 amended.** Flipping every piece's color *and* mirroring its square
across the horizontal rank axis (row `r` to `7 − r`, same file) negates the
evaluation. -/
theorem evaluate_colorMirror_neg (bd : BoardFn) :
    evaluateBoard (colorMirror bd) = - evaluateBoard bd := by
  rw [evaluateBoard_eq_finsum, evaluateBoard_eq_finsum]
  have h1 : ∀ r ∈ Finset.range 8,
      ∑ c ∈ Finset.range 8, squareScore (colorMirror bd) r c
        = -(∑ c ∈ Finset.range 8, squareScore bd (7 - r) c) := by
    intro r hr
    rw [← Finset.sum_neg_distrib]
    exact Finset.sum_congr rfl fun c _ =>
      squareScore_colorMirror bd r c (Finset.mem_range.mp hr)
  rw [Finset.sum_congr rfl h1, ← Finset.sum_neg_distrib]
  have h2 := Finset.sum_range_reflect
    (fun r => -∑ c ∈ Finset.range 8, squareScore bd r c) 8
  simp only [show (8 : ℕ) - 1 = 7 from rfl] at h2
  exact h2

set_option maxHeartbeats 20000000 in
set_option maxRecDepth 100000 in
/-- The full depth-2 search from the start position, computed once: the
engine returns the knight move b1–c3 (square 57 to square 42) with
evaluation exactly 0 centipawns. -/
theorem startpos_depth2_compute :
    findBestMove chessEngine startPos 2 =
      (some ⟨57, 42, none, none, false, false⟩, JVal.num 0) := by
  decide

set_option maxHeartbeats 2000000 in
set_option maxRecDepth 100000 in
/-- **C7.** On the standard starting position at depth 2, `findBestMove`
returns an evaluation of exactly 0 centipawns and a non-absent move that is
one of the 20 legal opening moves. -/
theorem startpos_depth2_findBestMove :
    (legalMoves startPos).length = 20 ∧
    (findBestMove chessEngine startPos 2).2 = JVal.num 0 ∧
    ∃ m : ChessMove, (findBestMove chessEngine startPos 2).1 = some m ∧
      m ∈ legalMoves startPos := by
  refine ⟨by decide, ?_, ⟨57, 42, none, none, false, false⟩, ?_, ?_⟩
  · rw [startpos_depth2_compute]
  · rw [startpos_depth2_compute]
  · decide

theorem Preserves.refl (σ : Store Pos) : Preserves σ σ := ⟨le_refl _, fun _ _ => rfl⟩

theorem Preserves.trans {σ₁ σ₂ σ₃ : Store Pos}
    (h₁ : Preserves σ₁ σ₂) (h₂ : Preserves σ₂ σ₃) : Preserves σ₁ σ₃ :=
  ⟨le_trans h₁.1 h₂.1, fun i hi => by rw [h₂.2 i (lt_of_lt_of_le hi h₁.1), h₁.2 i hi]⟩

/-- Cloning then mutating the clone preserves every pre-existing cell. -/
theorem alloc_write_preserves (σ : Store Pos) (P Q : Pos) :
    Preserves σ (((σ.alloc P).2).write (σ.alloc P).1 Q) := by
  constructor
  · exact Nat.le_succ _
  · intro i hi
    have h1 : i ≠ σ.next := Nat.ne_of_lt hi
    simp only [Store.alloc, Store.write, if_neg h1]

theorem alloc_write_mem (σ : Store Pos) (P Q : Pos) :
    (((σ.alloc P).2).write (σ.alloc P).1 Q).mem (σ.alloc P).1 = some Q := by
  simp [Store.alloc, Store.write]

theorem alloc_fresh_lt (σ : Store Pos) (P Q : Pos) :
    (σ.alloc P).1 < (((σ.alloc P).2).write (σ.alloc P).1 Q).next :=
  Nat.lt_succ_self _

/-! #### Frame lemmas: no pre-existing cell is ever written -/

theorem maxLoopS_frame (E : Engine Pos Move) (g : ℕ)
    (child : ℕ → JVal → JVal → Store Pos → JVal × Store Pos)
    (hchild : ∀ h a b σ', Preserves σ' (child h a b σ').2) :
    ∀ (ms : List Move) (acc alpha beta : JVal) (σ : Store Pos),
      Preserves σ (maxLoopS E g child ms acc alpha beta σ).2 := by
  intro ms
  induction ms with
  | nil => intro acc alpha beta σ; exact Preserves.refl σ
  | cons m ms ih =>
    intro acc alpha beta σ
    simp only [maxLoopS]
    cases hg : σ.mem g with
    | none => exact Preserves.refl σ
    | some Pg =>
      dsimp only
      have h1 : Preserves σ ((σ.alloc Pg).2.write (σ.alloc Pg).1 (E.move Pg m)) :=
        alloc_write_preserves σ Pg _
      have h2 := hchild (σ.alloc Pg).1 alpha beta
        ((σ.alloc Pg).2.write (σ.alloc Pg).1 (E.move Pg m))
      split
      · exact h1.trans h2
      · exact (h1.trans h2).trans (ih _ _ _ _)

theorem minLoopS_frame (E : Engine Pos Move) (g : ℕ)
    (child : ℕ → JVal → JVal → Store Pos → JVal × Store Pos)
    (hchild : ∀ h a b σ', Preserves σ' (child h a b σ').2) :
    ∀ (ms : List Move) (acc alpha beta : JVal) (σ : Store Pos),
      Preserves σ (minLoopS E g child ms acc alpha beta σ).2 := by
  intro ms
  induction ms with
  | nil => intro acc alpha beta σ; exact Preserves.refl σ
  | cons m ms ih =>
    intro acc alpha beta σ
    simp only [minLoopS]
    cases hg : σ.mem g with
    | none => exact Preserves.refl σ
    | some Pg =>
      dsimp only
      have h1 : Preserves σ ((σ.alloc Pg).2.write (σ.alloc Pg).1 (E.move Pg m)) :=
        alloc_write_preserves σ Pg _
      have h2 := hchild (σ.alloc Pg).1 alpha beta
        ((σ.alloc Pg).2.write (σ.alloc Pg).1 (E.move Pg m))
      split
      · exact h1.trans h2
      · exact (h1.trans h2).trans (ih _ _ _ _)

theorem minimaxS_frame (E : Engine Pos Move) :
    ∀ (d : ℕ) (g : ℕ) (alpha beta : JVal) (maxing : Bool) (σ : Store Pos),
      Preserves σ (minimaxS E d g alpha beta maxing σ).2 := by
  intro d
  induction d with
  | zero => intro g alpha beta maxing σ; exact Preserves.refl σ
  | succ d ih =>
    intro g alpha beta maxing σ
    simp only [minimaxS]
    cases hg : σ.mem g with
    | none => exact Preserves.refl σ
    | some P =>
      dsimp only
      split
      · exact Preserves.refl σ
      · split
        · exact maxLoopS_frame E g _ (fun h a b σ' => ih h a b false σ') _ _ _ _ σ
        · exact minLoopS_frame E g _ (fun h a b σ' => ih h a b true σ') _ _ _ _ σ

theorem bestLoopS_frame (E : Engine Pos Move) (g : ℕ)
    (child : ℕ → Store Pos → JVal × Store Pos) (isMax : Bool)
    (hchild : ∀ h σ', Preserves σ' (child h σ').2) :
    ∀ (ms : List Move) (bm : Move) (bv : JVal) (σ : Store Pos),
      Preserves σ (bestLoopS E g child isMax ms bm bv σ).2 := by
  intro ms
  induction ms with
  | nil => intro bm bv σ; exact Preserves.refl σ
  | cons m ms ih =>
    intro bm bv σ
    simp only [bestLoopS]
    cases hg : σ.mem g with
    | none => exact Preserves.refl σ
    | some Pg =>
      dsimp only
      have h1 : Preserves σ ((σ.alloc Pg).2.write (σ.alloc Pg).1 (E.move Pg m)) :=
        alloc_write_preserves σ Pg _
      have h2 := hchild (σ.alloc Pg).1
        ((σ.alloc Pg).2.write (σ.alloc Pg).1 (E.move Pg m))
      split
      · split
        · exact (h1.trans h2).trans (ih _ _ _)
        · exact (h1.trans h2).trans (ih _ _ _)
      · split
        · exact (h1.trans h2).trans (ih _ _ _)
        · exact (h1.trans h2).trans (ih _ _ _)

theorem collectLoopS_frame (E : Engine Pos Move) (g : ℕ)
    (child : ℕ → Store Pos → JVal × Store Pos)
    (hchild : ∀ h σ', Preserves σ' (child h σ').2) :
    ∀ (ms : List Move) (σ : Store Pos),
      Preserves σ (collectLoopS E g child ms σ).2 := by
  intro ms
  induction ms with
  | nil => intro σ; exact Preserves.refl σ
  | cons m ms ih =>
    intro σ
    simp only [collectLoopS]
    cases hg : σ.mem g with
    | none => exact Preserves.refl σ
    | some Pg =>
      dsimp only
      have h1 : Preserves σ ((σ.alloc Pg).2.write (σ.alloc Pg).1 (E.move Pg m)) :=
        alloc_write_preserves σ Pg _
      have h2 := hchild (σ.alloc Pg).1
        ((σ.alloc Pg).2.write (σ.alloc Pg).1 (E.move Pg m))
      exact (h1.trans h2).trans (ih _)

theorem findBestMoveS_frame (E : Engine Pos Move) (g : ℕ) (d : ℕ) (σ : Store Pos) :
    Preserves σ (findBestMoveS E g d σ).2 := by
  unfold findBestMoveS
  cases hg : σ.mem g with
  | none => exact Preserves.refl σ
  | some P =>
    dsimp only
    cases hm : E.moves P with
    | nil => exact Preserves.refl σ
    | cons m₀ rest =>
      dsimp only
      exact bestLoopS_frame E g
        (fun h σ' => minimaxS E (d - 1) h JVal.negInf JVal.posInf
          (!decide (E.turn P = Color.w)) σ')
        (decide (E.turn P = Color.w))
        (fun h σ' => minimaxS_frame E (d - 1) h JVal.negInf JVal.posInf
          (!decide (E.turn P = Color.w)) σ')
        (sortMovesCapturesFirst E (m₀ :: rest))
        ((sortMovesCapturesFirst E (m₀ :: rest)).headD m₀)
        (if decide (E.turn P = Color.w) then JVal.negInf else JVal.posInf) σ

theorem findTopMovesS_frame (E : Engine Pos Move) (g : ℕ) (d count : ℕ)
    (σ : Store Pos) : Preserves σ (findTopMovesS E g d count σ).2 := by
  unfold findTopMovesS
  cases hg : σ.mem g with
  | none => exact Preserves.refl σ
  | some P =>
    dsimp only
    split
    · exact Preserves.refl σ
    · exact collectLoopS_frame E g
        (fun h σ' => minimaxS E (d - 1) h JVal.negInf JVal.posInf
          (!decide (E.turn P = Color.w)) σ')
        (fun h σ' => minimaxS_frame E (d - 1) h JVal.negInf JVal.posInf
          (!decide (E.turn P = Color.w)) σ')
        (E.moves P) σ

/-! #### Erasure lemmas: the returned value is the pure function of the
cell's position -/

theorem maxLoopS_value (E : Engine Pos Move) (g : ℕ)
    (child : ℕ → JVal → JVal → Store Pos → JVal × Store Pos)
    (childPure : Pos → JVal → JVal → JVal)
    (hchildf : ∀ h a b σ', Preserves σ' (child h a b σ').2)
    (hchildv : ∀ h (a b : JVal) (σ' : Store Pos) (Q : Pos), h < σ'.next →
      σ'.mem h = some Q → (child h a b σ').1 = childPure Q a b) :
    ∀ (ms : List Move) (acc alpha beta : JVal) (σ : Store Pos) (P : Pos),
      g < σ.next → σ.mem g = some P →
      (maxLoopS E g child ms acc alpha beta σ).1 =
        maxLoop (fun m a b => childPure (E.move P m) a b) ms acc alpha beta := by
  intro ms
  induction ms with
  | nil => intro acc alpha beta σ P _ _; rfl
  | cons m ms ih =>
    intro acc alpha beta σ P hlt hv
    simp only [maxLoopS, hv, maxLoop]
    have hmem : ((σ.alloc P).2.write (σ.alloc P).1 (E.move P m)).mem (σ.alloc P).1
        = some (E.move P m) := alloc_write_mem σ P _
    have hfresh : (σ.alloc P).1 < ((σ.alloc P).2.write (σ.alloc P).1 (E.move P m)).next :=
      alloc_fresh_lt σ P _
    have hev : (child (σ.alloc P).1 alpha beta
        ((σ.alloc P).2.write (σ.alloc P).1 (E.move P m))).1 =
        childPure (E.move P m) alpha beta :=
      hchildv _ _ _ _ _ hfresh hmem
    rw [hev]
    split
    · rfl
    · have hpres : Preserves ((σ.alloc P).2.write (σ.alloc P).1 (E.move P m))
          (child (σ.alloc P).1 alpha beta
            ((σ.alloc P).2.write (σ.alloc P).1 (E.move P m))).2 := hchildf _ _ _ _
      have hstep : Preserves σ ((σ.alloc P).2.write (σ.alloc P).1 (E.move P m)) :=
        alloc_write_preserves σ P _
      refine ih _ _ _ _ P ?_ ?_
      · exact lt_of_lt_of_le hlt (le_trans hstep.1 hpres.1)
      · rw [hpres.2 g (lt_of_lt_of_le hlt hstep.1), hstep.2 g hlt, hv]

theorem minLoopS_value (E : Engine Pos Move) (g : ℕ)
    (child : ℕ → JVal → JVal → Store Pos → JVal × Store Pos)
    (childPure : Pos → JVal → JVal → JVal)
    (hchildf : ∀ h a b σ', Preserves σ' (child h a b σ').2)
    (hchildv : ∀ h (a b : JVal) (σ' : Store Pos) (Q : Pos), h < σ'.next →
      σ'.mem h = some Q → (child h a b σ').1 = childPure Q a b) :
    ∀ (ms : List Move) (acc alpha beta : JVal) (σ : Store Pos) (P : Pos),
      g < σ.next → σ.mem g = some P →
      (minLoopS E g child ms acc alpha beta σ).1 =
        minLoop (fun m a b => childPure (E.move P m) a b) ms acc alpha beta := by
  intro ms
  induction ms with
  | nil => intro acc alpha beta σ P _ _; rfl
  | cons m ms ih =>
    intro acc alpha beta σ P hlt hv
    simp only [minLoopS, hv, minLoop]
    have hmem : ((σ.alloc P).2.write (σ.alloc P).1 (E.move P m)).mem (σ.alloc P).1
        = some (E.move P m) := alloc_write_mem σ P _
    have hfresh : (σ.alloc P).1 < ((σ.alloc P).2.write (σ.alloc P).1 (E.move P m)).next :=
      alloc_fresh_lt σ P _
    have hev : (child (σ.alloc P).1 alpha beta
        ((σ.alloc P).2.write (σ.alloc P).1 (E.move P m))).1 =
        childPure (E.move P m) alpha beta :=
      hchildv _ _ _ _ _ hfresh hmem
    rw [hev]
    split
    · rfl
    · have hpres : Preserves ((σ.alloc P).2.write (σ.alloc P).1 (E.move P m))
          (child (σ.alloc P).1 alpha beta
            ((σ.alloc P).2.write (σ.alloc P).1 (E.move P m))).2 := hchildf _ _ _ _
      have hstep : Preserves σ ((σ.alloc P).2.write (σ.alloc P).1 (E.move P m)) :=
        alloc_write_preserves σ P _
      refine ih _ _ _ _ P ?_ ?_
      · exact lt_of_lt_of_le hlt (le_trans hstep.1 hpres.1)
      · rw [hpres.2 g (lt_of_lt_of_le hlt hstep.1), hstep.2 g hlt, hv]

theorem minimaxS_value (E : Engine Pos Move) :
    ∀ (d : ℕ) (g : ℕ) (alpha beta : JVal) (maxing : Bool) (σ : Store Pos) (P : Pos),
      g < σ.next → σ.mem g = some P →
      (minimaxS E d g alpha beta maxing σ).1 = minimax E d P alpha beta maxing := by
  intro d
  induction d with
  | zero =>
    intro g alpha beta maxing σ P _ hv
    simp only [minimaxS, hv, minimax]
  | succ d ih =>
    intro g alpha beta maxing σ P hlt hv
    simp only [minimaxS, hv, minimax]
    split
    · rfl
    · cases maxing with
      | true =>
        simp only [eq_self_iff_true, if_true]
        exact maxLoopS_value E g _ (fun Q a b => minimax E d Q a b false)
          (fun h a b σ' => minimaxS_frame E d h a b false σ')
          (fun h a b σ' Q hh hq => ih h a b false σ' Q hh hq)
          _ _ _ _ σ P hlt hv
      | false =>
        simp only [Bool.false_eq_true, if_false]
        exact minLoopS_value E g _ (fun Q a b => minimax E d Q a b true)
          (fun h a b σ' => minimaxS_frame E d h a b true σ')
          (fun h a b σ' Q hh hq => ih h a b true σ' Q hh hq)
          _ _ _ _ σ P hlt hv

theorem bestLoopS_value (E : Engine Pos Move) (g : ℕ)
    (child : ℕ → Store Pos → JVal × Store Pos)
    (childPure : Pos → JVal) (isMax : Bool)
    (hchildf : ∀ h σ', Preserves σ' (child h σ').2)
    (hchildv : ∀ h (σ' : Store Pos) (Q : Pos), h < σ'.next →
      σ'.mem h = some Q → (child h σ').1 = childPure Q) :
    ∀ (ms : List Move) (bm : Move) (bv : JVal) (σ : Store Pos) (P : Pos),
      g < σ.next → σ.mem g = some P →
      (bestLoopS E g child isMax ms bm bv σ).1 =
        bestLoop (fun m => childPure (E.move P m)) isMax ms bm bv := by
  intro ms
  induction ms with
  | nil => intro bm bv σ P _ _; rfl
  | cons m ms ih =>
    intro bm bv σ P hlt hv
    simp only [bestLoopS, hv, bestLoop]
    have hmem : ((σ.alloc P).2.write (σ.alloc P).1 (E.move P m)).mem (σ.alloc P).1
        = some (E.move P m) := alloc_write_mem σ P _
    have hfresh : (σ.alloc P).1 < ((σ.alloc P).2.write (σ.alloc P).1 (E.move P m)).next :=
      alloc_fresh_lt σ P _
    have hev : (child (σ.alloc P).1
        ((σ.alloc P).2.write (σ.alloc P).1 (E.move P m))).1 =
        childPure (E.move P m) :=
      hchildv _ _ _ hfresh hmem
    have hpres : Preserves ((σ.alloc P).2.write (σ.alloc P).1 (E.move P m))
        (child (σ.alloc P).1
          ((σ.alloc P).2.write (σ.alloc P).1 (E.move P m))).2 := hchildf _ _
    have hstep : Preserves σ ((σ.alloc P).2.write (σ.alloc P).1 (E.move P m)) :=
      alloc_write_preserves σ P _
    have hlt' : g < (child (σ.alloc P).1
        ((σ.alloc P).2.write (σ.alloc P).1 (E.move P m))).2.next :=
      lt_of_lt_of_le hlt (le_trans hstep.1 hpres.1)
    have hv' : (child (σ.alloc P).1
        ((σ.alloc P).2.write (σ.alloc P).1 (E.move P m))).2.mem g = some P := by
      rw [hpres.2 g (lt_of_lt_of_le hlt hstep.1), hstep.2 g hlt, hv]
    rw [hev]
    split
    · split
      · exact ih _ _ _ P hlt' hv'
      · exact ih _ _ _ P hlt' hv'
    · split
      · exact ih _ _ _ P hlt' hv'
      · exact ih _ _ _ P hlt' hv'

theorem collectLoopS_value (E : Engine Pos Move) (g : ℕ)
    (child : ℕ → Store Pos → JVal × Store Pos) (childPure : Pos → JVal)
    (hchildf : ∀ h σ', Preserves σ' (child h σ').2)
    (hchildv : ∀ h (σ' : Store Pos) (Q : Pos), h < σ'.next →
      σ'.mem h = some Q → (child h σ').1 = childPure Q) :
    ∀ (ms : List Move) (σ : Store Pos) (P : Pos),
      g < σ.next → σ.mem g = some P →
      (collectLoopS E g child ms σ).1 =
        ms.map (fun m => (m, childPure (E.move P m))) := by
  intro ms
  induction ms with
  | nil => intro σ P _ _; rfl
  | cons m ms ih =>
    intro σ P hlt hv
    simp only [collectLoopS, hv, List.map_cons]
    have hmem : ((σ.alloc P).2.write (σ.alloc P).1 (E.move P m)).mem (σ.alloc P).1
        = some (E.move P m) := alloc_write_mem σ P _
    have hfresh : (σ.alloc P).1 < ((σ.alloc P).2.write (σ.alloc P).1 (E.move P m)).next :=
      alloc_fresh_lt σ P _
    have hev : (child (σ.alloc P).1
        ((σ.alloc P).2.write (σ.alloc P).1 (E.move P m))).1 =
        childPure (E.move P m) :=
      hchildv _ _ _ hfresh hmem
    have hpres : Preserves ((σ.alloc P).2.write (σ.alloc P).1 (E.move P m))
        (child (σ.alloc P).1
          ((σ.alloc P).2.write (σ.alloc P).1 (E.move P m))).2 := hchildf _ _
    have hstep : Preserves σ ((σ.alloc P).2.write (σ.alloc P).1 (E.move P m)) :=
      alloc_write_preserves σ P _
    have hlt' : g < (child (σ.alloc P).1
        ((σ.alloc P).2.write (σ.alloc P).1 (E.move P m))).2.next :=
      lt_of_lt_of_le hlt (le_trans hstep.1 hpres.1)
    have hv' : (child (σ.alloc P).1
        ((σ.alloc P).2.write (σ.alloc P).1 (E.move P m))).2.mem g = some P := by
      rw [hpres.2 g (lt_of_lt_of_le hlt hstep.1), hstep.2 g hlt, hv]
    rw [hev, ih _ P hlt' hv']

theorem findBestMoveS_value (E : Engine Pos Move) (g : ℕ) (d : ℕ)
    (σ : Store Pos) (P : Pos) (hlt : g < σ.next) (hv : σ.mem g = some P) :
    (findBestMoveS E g d σ).1 = findBestMove E P d := by
  unfold findBestMoveS findBestMove
  rw [hv]
  dsimp only
  cases hm : E.moves P with
  | nil => rfl
  | cons m₀ rest =>
    dsimp only
    have h := bestLoopS_value E g
      (fun h σ' => minimaxS E (d - 1) h JVal.negInf JVal.posInf
        (!decide (E.turn P = Color.w)) σ')
      (fun Q => minimax E (d - 1) Q JVal.negInf JVal.posInf
        (!decide (E.turn P = Color.w)))
      (decide (E.turn P = Color.w))
      (fun h σ' => minimaxS_frame E (d - 1) h _ _ _ σ')
      (fun h σ' Q hh hq => minimaxS_value E (d - 1) h _ _ _ σ' Q hh hq)
      (sortMovesCapturesFirst E (m₀ :: rest))
      ((sortMovesCapturesFirst E (m₀ :: rest)).headD m₀)
      (if decide (E.turn P = Color.w) then JVal.negInf else JVal.posInf)
      σ P hlt hv
    rw [h]

theorem findTopMovesS_value (E : Engine Pos Move) (g : ℕ) (d count : ℕ)
    (σ : Store Pos) (P : Pos) (hlt : g < σ.next) (hv : σ.mem g = some P) :
    (findTopMovesS E g d count σ).1 = findTopMoves E P d count := by
  unfold findTopMovesS findTopMoves
  rw [hv]
  dsimp only
  by_cases he : (E.moves P).isEmpty = true
  · rw [if_pos he, if_pos he]
  · rw [if_neg he, if_neg he]
    have h := collectLoopS_value E g
      (fun h σ' => minimaxS E (d - 1) h JVal.negInf JVal.posInf
        (!decide (E.turn P = Color.w)) σ')
      (fun Q => minimax E (d - 1) Q JVal.negInf JVal.posInf
        (!decide (E.turn P = Color.w)))
      (fun h σ' => minimaxS_frame E (d - 1) h _ _ _ σ')
      (fun h σ' Q hh hq => minimaxS_value E (d - 1) h _ _ _ σ' Q hh hq)
      (E.moves P) σ P hlt hv
    rw [h]

/-- **C8.** In the heap-passing translation — position objects are mutable
cells, `new Chess(game.fen())` allocates a fresh cell holding the caller's
position value, `gameCopy.move(move)` overwrites only that fresh cell — the
three public operations leave every pre-existing cell, in particular the
caller's position object, unchanged, and each returns exactly the pure
function of the position value stored in the caller's cell, so two calls
with equal positions and equal arguments return equal results: the
operations are deterministic with no mutable state shared across calls. -/
theorem core_ops_frame_and_pure (E : Engine Pos Move) (g : ℕ) (σ : Store Pos)
    (P : Pos) (hlt : g < σ.next) (hv : σ.mem g = some P) :
    ((evaluateS E g σ).2 = σ ∧ (evaluateS E g σ).1 = evaluateBoard (E.board P)) ∧
    (∀ d count : ℕ,
      Preserves σ (findTopMovesS E g d count σ).2 ∧
      (findTopMovesS E g d count σ).2.mem g = some P ∧
      (findTopMovesS E g d count σ).1 = findTopMoves E P d count) ∧
    (∀ d : ℕ,
      Preserves σ (findBestMoveS E g d σ).2 ∧
      (findBestMoveS E g d σ).2.mem g = some P ∧
      (findBestMoveS E g d σ).1 = findBestMove E P d) := by
  refine ⟨⟨rfl, by simp only [evaluateS, hv]⟩, ?_, ?_⟩
  · intro d count
    have hf := findTopMovesS_frame E g d count σ
    exact ⟨hf, by rw [hf.2 g hlt, hv], findTopMovesS_value E g d count σ P hlt hv⟩
  · intro d
    have hf := findBestMoveS_frame E g d σ
    exact ⟨hf, by rw [hf.2 g hlt, hv], findBestMoveS_value E g d σ P hlt hv⟩

/-- Witness for `core_ops_frame_and_pure` at a concrete store and engine. -/
theorem core_ops_frame_and_pure_witness :
    ((0 < unitStore.next ∧ unitStore.mem 0 = some ()) ∧
      (((evaluateS unitEngine 0 unitStore).2 = unitStore ∧
        (evaluateS unitEngine 0 unitStore).1 = evaluateBoard (unitEngine.board ())) ∧
      (∀ d count : ℕ,
        Preserves unitStore (findTopMovesS unitEngine 0 d count unitStore).2 ∧
        (findTopMovesS unitEngine 0 d count unitStore).2.mem 0 = some () ∧
        (findTopMovesS unitEngine 0 d count unitStore).1 = findTopMoves unitEngine () d count) ∧
      (∀ d : ℕ,
        Preserves unitStore (findBestMoveS unitEngine 0 d unitStore).2 ∧
        (findBestMoveS unitEngine 0 d unitStore).2.mem 0 = some () ∧
        (findBestMoveS unitEngine 0 d unitStore).1 = findBestMove unitEngine () d))) :=
  ⟨⟨Nat.zero_lt_one, rfl⟩,
    core_ops_frame_and_pure unitEngine 0 unitStore () Nat.zero_lt_one rfl⟩

end ChessAI
